import Mathlib

/-!
# clistuff: json2csv, csv2json, sqltable2csv

A shallow embedding of the three programs of the repository (each a package `main`).

* `Go`: what the programs use of the Go language and library: `strings.Split`,
  `strings.TrimSpace`, the type `float64` with its conversions, and the verb `%g`.
* `Json2csv`: `json2csv/json2csv.go`.
  * A decoded JSON value (`any` after `json.Unmarshal`) is the type `Value`.
  * A Go `map[string]T` is an association list `GoMap T`; the order of the list is the
    order in which `range` enumerates the map.  A well-formed map has distinct keys.
  * The run is the function `main` from the configuration (the parsed flags) and the decoded
    batch to either the message of the fatal error or what is written: the header record,
    one data record per input record, and the warnings on the diagnostic stream.
* `Csv2json`: `json2csv/csv2json.go`, on the records the CSV reader returns.
* `Sqltable2csv`: `sqltable2csv/main.go`, on the lines the scanner returns.
* CSV quoting, JSON text, reading of stdin and write errors are outside the model.
-/

namespace Go

/-! ## The package `strings` -/

/-- The function `unicode.IsSpace`: the code points with the Unicode property White_Space
(`\t`, `\n`, `\v`, `\f`, `\r`, space, U+0085, U+00A0, U+1680, U+2000-U+200A, U+2028, U+2029,
U+202F, U+205F, U+3000). -/
def isSpace (c : Char) : Bool :=
  let n := c.toNat
  (9 ≤ n && n ≤ 13) || n == 32 || n == 0x85 || n == 0xA0 || n == 0x1680
    || (0x2000 ≤ n && n ≤ 0x200A) || n == 0x2028 || n == 0x2029 || n == 0x202F
    || n == 0x205F || n == 0x3000

/-- The characters of `strings.TrimSpace(s)`: the leading and the trailing white space is
removed. -/
def trimSpaceChars (cs : List Char) : List Char :=
  (cs.dropWhile isSpace).rdropWhile isSpace

/-- The function `strings.TrimSpace`. -/
def trimSpace (s : String) : String :=
  ⟨trimSpaceChars s.data⟩

/-- Puts a character in front of the first segment. -/
def consFirst (c : Char) : List (List Char) → List (List Char)
  | [] => [[c]]
  | seg :: rest => (c :: seg) :: rest

/-- The segments of `strings.Split(s, sep)` for a separator of one character. -/
def splitChars (sep : Char) : List Char → List (List Char)
  | [] => [[]]
  | c :: cs => if c = sep then [] :: splitChars sep cs else consFirst c (splitChars sep cs)

/-- The function `strings.Split` for a separator of one character. -/
def split (s : String) (sep : Char) : List String :=
  (splitChars sep s.data).map String.mk

/-- The builtin `len` of a string: the number of bytes. -/
def len (s : String) : Nat :=
  s.utf8ByteSize

/-! ## The type `float64`, the conversions and the verb `%g` -/

/-- A finite `float64`: the value `mantissa * 2 ^ exponent` with a mantissa of at most 53
bits and an exponent of the binary64 range.  These are the values that `json.Unmarshal`
stores for a JSON number (it rounds the literal to the nearest of them and rejects a literal
out of range).  The sign of zero is not held: the program prints `0` for both zeros. -/
structure Float64 where
  mantissa : Int
  exponent : Int
  mantissa_lt : mantissa.natAbs < 2 ^ 53
  exponent_ge : -1074 ≤ exponent
  exponent_le : exponent ≤ 971

/-- The number that a `float64` denotes. -/
def Float64.toRat (v : Float64) : ℚ :=
  (v.mantissa : ℚ) * (2 : ℚ) ^ v.exponent

/-- The number without its fraction (truncation toward zero). -/
def Float64.truncate (v : Float64) : Int :=
  if 0 ≤ v.exponent then v.mantissa * 2 ^ v.exponent.toNat
  else Int.tdiv v.mantissa (2 ^ (-v.exponent).toNat)

/-- The comparison `v == f` of a `float64` with a `float64` whose value is the integer `i`. -/
def Float64.eqInt (v : Float64) (i : Int) : Bool :=
  if 0 ≤ v.exponent then decide (v.mantissa * 2 ^ v.exponent.toNat = i)
  else decide (v.mantissa = i * 2 ^ (-v.exponent).toNat)

/-- The natural number rounded to 53 significant bits, to nearest, ties to even. -/
def roundNat (n : Nat) : Nat :=
  if n < 2 ^ 53 then n
  else
    let k := Nat.log2 n - 52
    let q := n / 2 ^ k
    let r := n % 2 ^ k
    if 2 ^ (k - 1) < r ∨ (r = 2 ^ (k - 1) ∧ q % 2 = 1) then (q + 1) * 2 ^ k else q * 2 ^ k

/-- The value of the conversion `float64(i)` of an integer: the nearest `float64`. -/
def float64OfInt (i : Int) : Int :=
  if i < 0 then -(roundNat i.natAbs : Int) else (roundNat i.natAbs : Int)

/-- The mantissa and exponent of a positive `float64` in normal form: the mantissa holds its
53rd bit unless the exponent is the least one. -/
def normalize : Nat → Nat → Int → Nat × Int
  | 0, m, e => (m, e)
  | fuel + 1, m, e =>
    if m < 2 ^ 52 ∧ -1074 < e then normalize fuel (2 * m) (e - 1) else (m, e)

/-- The number of decimal digits that can be dropped from the bounds while a multiple of the
power of ten still lies between them. -/
def trimCount : Nat → Nat → Nat → Nat
  | 0, _, _ => 0
  | fuel + 1, lower, upper =>
    if (lower + 9) / 10 ≤ upper / 10 then
      trimCount fuel ((lower + 9) / 10) (upper / 10) + 1
    else 0

/-- The shortest decimal `digits * 10 ^ exponent` that rounds to the positive `float64`
`m * 2 ^ e`, and among the shortest the one nearest to it (`strconv` with precision -1).
The bounds are the midpoints to the neighbouring values, admissible when the mantissa is
even. -/
def shortest (m : Nat) (e : Int) : Nat × Int :=
  let (mant, exp) := normalize 53 m e
  let central := 4 * mant
  let upper := 4 * mant + 2
  let lower := if mant = 2 ^ 52 ∧ -1074 < exp then 4 * mant - 1 else 4 * mant - 2
  let scale := if 0 ≤ exp - 2 then 2 ^ (exp - 2).toNat else 5 ^ (-(exp - 2)).toNat
  let exp10 : Int := if 0 ≤ exp - 2 then 0 else exp - 2
  let lo := if mant % 2 = 0 then lower * scale else lower * scale + 1
  let hi := if mant % 2 = 0 then upper * scale else upper * scale - 1
  let t := trimCount 1100 lo hi
  let l := (lo + 10 ^ t - 1) / 10 ^ t
  let u := hi / 10 ^ t
  let c := central * scale / 10 ^ t
  let r := central * scale % 10 ^ t
  let digits :=
    if c < l then l
    else if (10 ^ t < 2 * r ∨ (2 * r = 10 ^ t ∧ c % 2 = 1)) ∧ c < u then c + 1
    else c
  (digits, (t : Int) + exp10)

/-- The exponent part of the `%e` form: a sign and at least two digits. -/
def formatExp (exp : Int) : List Char :=
  (if exp < 0 then '-' else '+') ::
    (if exp.natAbs < 10 then '0' :: (Nat.repr exp.natAbs).data else (Nat.repr exp.natAbs).data)

/-- The characters of `%g` for the positive value `m * 2 ^ e` (or zero): the `%e` form when
the decimal exponent is less than -4 or at least 6, else the `%f` form, both with the
shortest digits. -/
def formatGAbs (m : Nat) (e : Int) : List Char :=
  if m = 0 then ['0']
  else
    let (digits, exp10) := shortest m e
    let ds := (Nat.repr digits).data
    let dp : Int := (ds.length : Int) + exp10
    if dp - 1 < -4 ∨ 6 ≤ dp - 1 then
      (match ds with
        | [] => []
        | [d] => [d]
        | d :: rest => d :: '.' :: rest) ++ 'e' :: formatExp (dp - 1)
    else if dp ≤ 0 then
      '0' :: '.' :: (List.replicate (-dp).toNat '0' ++ ds)
    else if (ds.length : Int) ≤ dp then
      ds ++ List.replicate (dp - ds.length).toNat '0'
    else
      ds.take dp.toNat ++ '.' :: ds.drop dp.toNat

/-- The text of `fmt.Sprintf("%g", v)` for a `float64`. -/
def formatG (v : Float64) : String :=
  ⟨(if v.mantissa < 0 then ['-'] else []) ++ formatGAbs v.mantissa.natAbs v.exponent⟩

end Go

namespace Json2csv

/-! ## Data model -/

/-- A JSON value as `json.Unmarshal` stores it in an `any`: `nil`, `bool`, `float64`,
`string`, `[]any`, `map[string]any`. -/
inductive Value where
  | null : Value
  | bool (b : Bool) : Value
  | number (v : Go.Float64) : Value
  | string (s : String) : Value
  | array (elems : List Value) : Value
  | object (fields : List (String × Value)) : Value

/-- A Go map with string keys, as the list of its entries in enumeration order. -/
abbrev GoMap (α : Type) := List (String × α)

/-- The two-result index expression `v, exists := m[k]`. -/
def GoMap.get? {α : Type} : GoMap α → String → Option α
  | [], _ => none
  | (k, v) :: rest, key => if k = key then some v else GoMap.get? rest key

/-- The assignment `m[k] = v`: an existing entry is overwritten, a new one is added. -/
def GoMap.set {α : Type} : GoMap α → String → α → GoMap α
  | [], key, v => [(key, v)]
  | (k, w) :: rest, key, v =>
    if k = key then (k, v) :: rest else (k, w) :: GoMap.set rest key v

/-- The keys of a map, in enumeration order. -/
def GoMap.keys {α : Type} (m : GoMap α) : List String := m.map Prod.fst

/-- One input record: `map[string]any`. -/
abbrev Record := GoMap Value

/-- The test `value != nil && value != ""` of lines 85, 115, 181 and 186. -/
def Value.nonEmpty : Value → Bool
  | .null => false
  | .string s => s != ""
  | _ => true

/-- The flags after lines 24-33, with the merge assignments that pass `len(parts) == 2`
as the pairs `(header, sourceKey)` of lines 42-43, in the order of the flag. -/
structure Config where
  headers : List String
  appendAllHeaders : Bool
  excludeHeaders : List String
  assignments : List (String × String)

/-- What the source leaves to the library or the platform and no claim depends on: `%#v` of
a value of the default case, and `int64(v)` for a `v` whose truncation is outside the range
of `int64`. -/
structure Fmt where
  goSyntax : Value → String
  int64OutOfRange : Go.Float64 → Int

/-! ## Merge rules (lines 36-51) -/

/-- The map `mergeMap` after the loop of lines 39-50. -/
def mergeMap (assignments : List (String × String)) : GoMap (List String) :=
  assignments.foldl
    (fun m a => m.set a.1 (((m.get? a.1).getD []) ++ [a.2])) []

/-- The map `mergeSourceKeys` after the loop of lines 39-50. -/
def mergeSourceKeys (assignments : List (String × String)) : GoMap Bool :=
  assignments.foldl
    (fun m a => if a.2 ≠ a.1 then m.set a.2 true else m) []

/-- The guard of lines 86 and 124:
`!slices.Contains(headers, key) && !slices.Contains(excludeHeaders, key) && !mergeSourceKeys[key]`. -/
def discoverable (cfg : Config) (key : String) : Bool :=
  !cfg.headers.contains key && !cfg.excludeHeaders.contains key
    && !(((mergeSourceKeys cfg.assignments).get? key).getD false)

/-! ## Header resolution (lines 77-150) -/

/-- The statement `keyPopularity[key]++`. -/
def incr (m : GoMap Nat) (key : String) : GoMap Nat :=
  m.set key (((m.get? key).getD 0) + 1)

/-- The inner loop `for key, value := range row` of lines 83-90 and 114-118; `keep` is the
condition under which the counter is incremented. -/
def countRow (keep : String → Value → Bool) (m : GoMap Nat) (row : Record) : GoMap Nat :=
  row.foldl (fun m kv => if keep kv.1 kv.2 then incr m kv.1 else m) m

/-- The map `keyPopularity` after the loop over `data` (lines 82-91 in append-all mode,
lines 113-119 otherwise). -/
def keyPopularity (cfg : Config) (data : List Record) : GoMap Nat :=
  if cfg.appendAllHeaders then
    data.foldl (countRow (fun key value => value.nonEmpty && discoverable cfg key)) []
  else
    data.foldl (countRow (fun _ value => value.nonEmpty)) []

/-- The function `strings.Compare`: the lexicographic order of the two strings (the order of
the UTF-8 bytes is the order of the code point sequences). -/
def stringsCompare (a b : String) : Int :=
  if a = b then 0 else if a.toList < b.toList then -1 else 1

/-- The comparison function of lines 102-107 and 130-137 on the two counts and the two
names. -/
def cmpCountKey (countA countB : Nat) (a b : String) : Int :=
  if countA ≠ countB then (countB : Int) - (countA : Int) else stringsCompare a b

/-- The function `slices.SortFunc`: the list in ascending order of `cmp`.  The two comparison
functions of this program are total orders in which no two distinct elements compare equal,
so the ascending arrangement is unique and does not depend on the sorting algorithm. -/
def sortFunc {α : Type} (cmp : α → α → Int) (l : List α) : List α :=
  l.insertionSort (fun a b => cmp a b ≤ 0)

/-- The slice `sortedKeys` after line 107. -/
def sortedKeys (cfg : Config) (data : List Record) : List (String × Nat) :=
  sortFunc (fun a b => cmpCountKey a.2 b.2 a.1 b.1) (keyPopularity cfg data)

/-- The slice `additionalKeys` after the loop of lines 123-127 over `data[0]`. -/
def additionalKeys (cfg : Config) (first : Record) : List String :=
  (first.filter (fun kv => discoverable cfg kv.1)).map Prod.fst

/-- The names appended to `headers`: line 109 in append-all mode, line 140 otherwise. -/
def discovered (cfg : Config) (data : List Record) : List String :=
  if cfg.appendAllHeaders then
    (sortedKeys cfg data).map Prod.fst
  else
    let pop := keyPopularity cfg data
    sortFunc (fun a b => cmpCountKey ((pop.get? a).getD 0) ((pop.get? b).getD 0) a b)
      (additionalKeys cfg (data.headD []))

/-- The slice `filteredHeaders` of lines 144-149. -/
def filteredHeaders (cfg : Config) (headers : List String) : List String :=
  headers.filter (fun h => !cfg.excludeHeaders.contains h)

/-- The final value of `headers` (line 150). -/
def finalHeaders (cfg : Config) (data : List Record) : List String :=
  filteredHeaders cfg (cfg.headers ++ discovered cfg data)

/-! ## Row projection (lines 164-225) -/

/-- The loop of lines 185-190 over the source keys, with its `break`. -/
def firstSource (row : Record) : List String → Value
  | [] => .null
  | sourceKey :: rest =>
    match row.get? sourceKey with
    | some v => if v.nonEmpty then v else firstSource row rest
    | none => firstSource row rest

/-- The variable `value` after lines 176-194. -/
def selectValue (cfg : Config) (row : Record) (header : String) : Value :=
  match (mergeMap cfg.assignments).get? header with
  | some sourceKeys =>
    match row.get? header with
    | some v => if v.nonEmpty then v else firstSource row sourceKeys
    | none => firstSource row sourceKeys
  | none => (row.get? header).getD .null

/-- The conversion `int64(v)` of a `float64`: truncation toward zero inside the range. -/
def int64 (fmt : Fmt) (v : Go.Float64) : Int :=
  if -(2 : Int) ^ 63 ≤ v.truncate ∧ v.truncate < (2 : Int) ^ 63 then v.truncate
  else fmt.int64OutOfRange v

/-- The type switch of lines 196-218 on a decoded JSON value. -/
def coerce (fmt : Fmt) : Value → String
  | .number v =>
    if v.eqInt (Go.float64OfInt (int64 fmt v)) then toString (int64 fmt v) else Go.formatG v
  | .string s => s
  | .null => ""
  | v => fmt.goSyntax v

/-- The slice `values` of one row (lines 174-219). -/
def values (fmt : Fmt) (cfg : Config) (headers : List String) (row : Record) : List String :=
  headers.map (fun header => coerce fmt (selectValue cfg row header))

/-- The warnings of lines 166-172 for the row with 0-based index `rowIndex`. -/
def rowWarnings (cfg : Config) (headers : List String) (rowIndex : Nat) (row : Record) :
    List (Nat × String) :=
  if !cfg.appendAllHeaders then
    (row.keys.filter (fun key => !headers.contains key)).map (fun key => (rowIndex + 1, key))
  else []

/-- What a run without fatal error writes. -/
structure Output where
  header : List String
  rows : List (List String)
  warnings : List (Nat × String)

/-- The run on a decoded batch: lines 72-225. -/
def main (fmt : Fmt) (cfg : Config) (data : List Record) : Except String Output :=
  if data.length = 0 then
    .error "No data found in JSON"
  else
    let headers := finalHeaders cfg data
    .ok { header := headers
          rows := data.map (values fmt cfg headers)
          warnings := (data.enum.map (fun ir => rowWarnings cfg headers ir.1 ir.2)).flatten }

/-! ## Vocabulary of the specification -/

/-- The configured sources of the merge target `target`, in the order of the flag. -/
def sourcesOf (assignments : List (String × String)) (target : String) : List String :=
  (assignments.filter (fun a => decide (a.1 = target))).map Prod.snd

/-- A merge source key: the source of some assignment whose target is another name. -/
def IsMergeSourceKey (assignments : List (String × String)) (name : String) : Prop :=
  ∃ a ∈ assignments, a.2 = name ∧ a.2 ≠ a.1

instance instDecidableIsMergeSourceKey (assignments : List (String × String)) (name : String) :
    Decidable (IsMergeSourceKey assignments name) :=
  inferInstanceAs (Decidable (∃ a ∈ assignments, a.2 = name ∧ a.2 ≠ a.1))

/-- The record holds under `key` a value that is present and neither null nor the empty
string. -/
def HasValue (row : Record) (key : String) : Prop :=
  ∃ v, row.get? key = some v ∧ v.nonEmpty = true

instance instDecidableHasValue (row : Record) (key : String) : Decidable (HasValue row key) :=
  match h : row.get? key with
  | none => isFalse (fun ⟨_, hv, _⟩ => by rw [h] at hv; cases hv)
  | some v =>
    if hne : v.nonEmpty = true then isTrue ⟨v, h, hne⟩
    else isFalse (fun ⟨w, hw, hn⟩ => by rw [h] at hw; cases hw; exact hne hn)

/-- The test form of `HasValue`. -/
def holdsValue (row : Record) (name : String) : Bool :=
  match row.get? name with
  | some v => v.nonEmpty
  | none => false

/-- The Popularity Score of §3: the number of records of the batch in which the field is
present with a value that is neither null nor the empty string. -/
def popularity (data : List Record) (name : String) : Nat :=
  data.countP (fun row => holdsValue row name)

/-- The number of entries of `row` under the name `k` that pass `keep`. -/
def hits (keep : String → Value → Bool) (k : String) (row : Record) : Nat :=
  (row.filter (fun kv => decide (kv.1 = k) && keep kv.1 kv.2)).length

/-! ## Concrete inputs -/

/-- The parameters for evaluation: no text for `%#v`, and the result of `int64(v)` out of
range on amd64. -/
def plainFmt : Fmt :=
  { goSyntax := fun _ => "", int64OutOfRange := fun _ => -(2 : Int) ^ 63 }

/-- The `float64` 3.0. -/
def three : Go.Float64 := ⟨3, 0, by decide, by decide, by decide⟩

/-- The `float64` 3.5. -/
def threeAndHalf : Go.Float64 := ⟨7, -1, by decide, by decide, by decide⟩

/-- The batch of the scenarios of §8: `[{"a":"1","b":"2"},{"a":"3","c":"4"}]`. -/
def scenarioBatch : List Record :=
  [[("a", .string "1"), ("b", .string "2")], [("a", .string "3"), ("c", .string "4")]]

/-- The default configuration: no fixed, excluded or merge headers, default mode. -/
def defaultConfig : Config :=
  { headers := [], appendAllHeaders := false, excludeHeaders := [], assignments := [] }

/-- The default configuration with `append-all-headers`. -/
def appendAllConfig : Config :=
  { headers := [], appendAllHeaders := true, excludeHeaders := [], assignments := [] }

/-- The base-10 value of a sequence of digit characters. -/
def decimalValue (digits : List Char) : Nat :=
  digits.foldl (fun acc c => 10 * acc + (c.toNat - '0'.toNat)) 0

/-- The string is the decimal numeral of the integer: a minus sign exactly when the integer
is negative, followed by at least one character, all of them digits `0`-`9`, whose base-10
value is the absolute value. -/
def IsDecimalOf (s : String) (i : Int) : Prop :=
  ∃ digits : List Char, digits ≠ [] ∧ (∀ c ∈ digits, c.isDigit = true) ∧
    decimalValue digits = i.natAbs ∧
    s.data = (if i < 0 then ['-'] else []) ++ digits

/-! ## Flags (lines 24-51) -/

/-- The body of the loop of lines 39-50 for one assignment: the pair `(header, sourceKey)`
when `len(parts) == 2`. -/
def parseAssignment (assignment : String) : Option (String × String) :=
  match Go.split assignment '=' with
  | [header, sourceKey] => some (Go.trimSpace header, Go.trimSpace sourceKey)
  | _ => none

/-- The pairs `(header, sourceKey)` that the loop of lines 38-51 records, in order. -/
def parseMergeHeaders (mergeHeaderString : String) : List (String × String) :=
  if mergeHeaderString ≠ "" then
    (Go.split mergeHeaderString ',').filterMap parseAssignment
  else []

/-- The configuration that lines 24-51 build from the four flags. -/
def parseFlags (fixedHeaderString : String) (appendAllHeaders : Bool)
    (excludeHeaderString mergeHeaderString : String) : Config :=
  { headers := if fixedHeaderString ≠ "" then Go.split fixedHeaderString ',' else []
    appendAllHeaders := appendAllHeaders
    excludeHeaders := if excludeHeaderString ≠ "" then Go.split excludeHeaderString ',' else []
    assignments := parseMergeHeaders mergeHeaderString }

/-- One comma-separated piece of a `merge-headers` string as §6 reads it: an assignment
`target=source`, or any other text. -/
inductive Piece where
  | assignment (target source : List Char) : Piece
  | other (text : List Char) : Piece

/-- The characters of a piece. -/
def Piece.text : Piece → List Char
  | .assignment target source => target ++ '=' :: source
  | .other text => text

/-- The parts of an assignment hold no `,` and no `=`; any other piece holds no `,` and is
not of the form `target=source` (it does not hold exactly one `=`). -/
def Piece.WellFormed : Piece → Prop
  | .assignment target source =>
    ',' ∉ target ∧ '=' ∉ target ∧ ',' ∉ source ∧ '=' ∉ source
  | .other text => ',' ∉ text ∧ text.count '=' ≠ 1

/-- The rule of a piece: target and source of an assignment without the surrounding white
space; no rule for any other piece. -/
def Piece.rule : Piece → Option (String × String)
  | .assignment target source => some (Go.trimSpace ⟨target⟩, Go.trimSpace ⟨source⟩)
  | .other _ => none

/-- The `merge-headers` string made of the pieces. -/
def flagText (pieces : List Piece) : String :=
  ⟨List.intercalate [','] (pieces.map Piece.text)⟩

/-- The piece that a comma-free text is. -/
def Piece.ofText (text : List Char) : Piece :=
  match Go.splitChars '=' text with
  | [target, source] => .assignment target source
  | _ => .other text

/-- The record `{"n":-42.0,"f":-0.25,"p":4611686018427387904.0}` (the last is `2^62`). -/
def numbersRecord : Record :=
  [("n", .number ⟨-42, 0, by decide, by decide, by decide⟩),
   ("f", .number ⟨-1, -2, by decide, by decide, by decide⟩),
   ("p", .number ⟨1, 62, by decide, by decide, by decide⟩)]

end Json2csv

namespace Csv2json

open Json2csv

/-! ## json2csv/csv2json.go -/

/-- The map `rowMap` after the loop of lines 37-42 over the fields of one data record. -/
def rowMap (header : List String) (row : List String) : GoMap String :=
  row.enum.foldl
    (fun m iv =>
      if h : iv.1 < header.length then GoMap.set m (header.get ⟨iv.1, h⟩) iv.2 else m) []

/-- The slice `result` after the loop of lines 26-45: one map per data record.  The reader
returns only data records with as many fields as the header record. -/
def main (header : List String) (rows : List (List String)) : List (GoMap String) :=
  rows.foldl (fun result row => result ++ [rowMap header row]) []

/-- The record that `json.Unmarshal` decodes from the JSON object that `json.MarshalIndent`
writes for a map of strings: every value is a JSON string. -/
def toRecord (m : GoMap String) : Record :=
  m.map (fun kv => (kv.1, Value.string kv.2))

/-- CSV to JSON to CSV: `json2csv` on the batch that `csv2json` writes. -/
def roundTrip (fmt : Fmt) (cfg : Config) (header : List String) (rows : List (List String)) :
    Except String Output :=
  Json2csv.main fmt cfg ((main header rows).map toRecord)

end Csv2json

namespace Sqltable2csv

/-! ## sqltable2csv/main.go -/

/-- The loop of lines 44-48: no character of the line is other than `-`, `+`, `=` and
space. -/
def onlySeparatorChars : List Char → Bool
  | [] => true
  | ch :: rest =>
    if ch ≠ '-' ∧ ch ≠ '+' ∧ ch ≠ '=' ∧ ch ≠ ' ' then false else onlySeparatorChars rest

/-- The function `isSeparatorLine` (lines 42-50). -/
def isSeparatorLine (line : String) : Bool :=
  if onlySeparatorChars line.data then decide (Go.len (Go.trimSpace line) > 0) else false

/-- The function `splitAndTrim` (lines 52-64). -/
def splitAndTrim (line : String) : List String :=
  (Go.split line '|').foldl (fun result part => result ++ [Go.trimSpace part]) []

/-- The CSV records that `main` writes for the lines the scanner returns (lines 17-34). -/
def main (lines : List String) : List (List String) :=
  lines.foldl
    (fun written line => if isSeparatorLine line then written else written ++ [splitAndTrim line])
    []

end Sqltable2csv

/-! # Lemmas -/

namespace Go

/-! ## Splitting -/

theorem splitChars_cons_sep (sep : Char) (cs : List Char) :
    splitChars sep (sep :: cs) = [] :: splitChars sep cs := by
  simp [splitChars]

theorem splitChars_cons_of_ne (sep c : Char) (cs : List Char) (h : c ≠ sep) :
    splitChars sep (c :: cs) = consFirst c (splitChars sep cs) := by
  simp [splitChars, h]

theorem splitChars_ne_nil (sep : Char) (cs : List Char) : splitChars sep cs ≠ [] := by
  cases cs with
  | nil => simp [splitChars]
  | cons c cs =>
    unfold splitChars
    split
    · simp
    · cases h : splitChars sep cs <;> simp [consFirst]

theorem length_consFirst (c : Char) (segs : List (List Char)) (h : segs ≠ []) :
    (consFirst c segs).length = segs.length := by
  cases segs with
  | nil => exact absurd rfl h
  | cons seg rest => rfl

theorem length_splitChars (sep : Char) (cs : List Char) :
    (splitChars sep cs).length = cs.count sep + 1 := by
  induction cs with
  | nil => rfl
  | cons c cs ih =>
    unfold splitChars
    by_cases h : c = sep
    · subst h
      simp [ih]
    · have h' : ¬ (c == sep) = true := by simpa using h
      rw [if_neg h, length_consFirst c _ (splitChars_ne_nil sep cs), ih,
        List.count_cons, if_neg h']

theorem not_mem_of_mem_splitChars (sep : Char) (cs : List Char) :
    ∀ seg ∈ splitChars sep cs, sep ∉ seg := by
  induction cs with
  | nil => simp [splitChars]
  | cons c cs ih =>
    unfold splitChars
    by_cases h : c = sep
    · rw [if_pos h]
      intro seg hseg
      rcases List.mem_cons.1 hseg with e | e
      · subst e
        simp
      · exact ih seg e
    · rw [if_neg h]
      cases hs : splitChars sep cs with
      | nil => exact absurd hs (splitChars_ne_nil sep cs)
      | cons seg0 rest =>
        rw [hs] at ih
        intro seg hseg
        simp only [consFirst, List.mem_cons] at hseg
        rcases hseg with e | e
        · subst e
          intro hmem
          rcases List.mem_cons.1 hmem with e1 | e1
          · exact h e1.symm
          · exact ih seg0 (List.mem_cons_self _ _) e1
        · exact ih seg (List.mem_cons_of_mem _ e)

theorem intercalate_cons_cons (sep : Char) (seg seg' : List Char) (rest : List (List Char)) :
    List.intercalate [sep] (seg :: seg' :: rest)
      = seg ++ sep :: List.intercalate [sep] (seg' :: rest) := by
  simp [List.intercalate, List.intersperse]

theorem intercalate_singleton (sep : Char) (seg : List Char) :
    List.intercalate [sep] [seg] = seg := by
  simp [List.intercalate, List.intersperse]

theorem intercalate_consFirst (sep c : Char) (segs : List (List Char)) (h : segs ≠ []) :
    List.intercalate [sep] (consFirst c segs) = c :: List.intercalate [sep] segs := by
  cases segs with
  | nil => exact absurd rfl h
  | cons seg rest =>
    cases rest with
    | nil => simp [consFirst, intercalate_singleton]
    | cons seg' rest' => simp [consFirst, intercalate_cons_cons]

theorem intercalate_splitChars (sep : Char) (cs : List Char) :
    List.intercalate [sep] (splitChars sep cs) = cs := by
  induction cs with
  | nil => simp [splitChars, intercalate_singleton]
  | cons c cs ih =>
    unfold splitChars
    by_cases h : c = sep
    · rw [if_pos h]
      cases hs : splitChars sep cs with
      | nil => exact absurd hs (splitChars_ne_nil sep cs)
      | cons seg0 rest =>
        rw [hs] at ih
        rw [intercalate_cons_cons, ih, h]
        rfl
    · rw [if_neg h, intercalate_consFirst sep c _ (splitChars_ne_nil sep cs), ih]

theorem splitChars_of_not_mem (sep : Char) (seg : List Char) (h : sep ∉ seg) :
    splitChars sep seg = [seg] := by
  induction seg with
  | nil => rfl
  | cons c cs ih =>
    have hc : ¬ c = sep := fun e => h (e ▸ List.mem_cons_self _ _)
    have hcs : sep ∉ cs := fun e => h (List.mem_cons_of_mem _ e)
    rw [splitChars_cons_of_ne sep c cs hc, ih hcs]
    rfl

theorem splitChars_append_sep (sep : Char) (seg rest : List Char) (h : sep ∉ seg) :
    splitChars sep (seg ++ sep :: rest) = seg :: splitChars sep rest := by
  induction seg with
  | nil => exact splitChars_cons_sep sep rest
  | cons c cs ih =>
    have hc : ¬ c = sep := fun e => h (e ▸ List.mem_cons_self _ _)
    have hcs : sep ∉ cs := fun e => h (List.mem_cons_of_mem _ e)
    rw [List.cons_append, splitChars_cons_of_ne sep c _ hc, ih hcs]
    rfl

theorem splitChars_intercalate (sep : Char) (segs : List (List Char)) (hne : segs ≠ [])
    (h : ∀ seg ∈ segs, sep ∉ seg) : splitChars sep (List.intercalate [sep] segs) = segs := by
  induction segs with
  | nil => exact absurd rfl hne
  | cons seg rest ih =>
    cases rest with
    | nil =>
      rw [intercalate_singleton]
      exact splitChars_of_not_mem sep seg (h seg (List.mem_cons_self _ _))
    | cons seg' rest' =>
      rw [intercalate_cons_cons,
        splitChars_append_sep sep seg _ (h seg (List.mem_cons_self _ _)),
        ih (by simp) (fun s hs => h s (List.mem_cons_of_mem _ hs))]

/-! ## Trimming -/

theorem dropWhile_head_not (p : Char → Bool) (cs : List Char) (c : Char) (rest : List Char)
    (h : cs.dropWhile p = c :: rest) : p c = false := by
  have := List.head?_dropWhile_not p cs
  rw [h] at this
  simpa using this

theorem rdropWhile_last_not' (p : Char → Bool) (cs : List Char) (init : List Char) (c : Char)
    (h : cs.rdropWhile p = init ++ [c]) : p c = false := by
  have hne : cs.rdropWhile p ≠ [] := by
    rw [h]
    simp
  have := List.rdropWhile_last_not p cs hne
  have e : (cs.rdropWhile p).getLast hne = c := by
    simp [h]
  rw [e] at this
  simpa using this

theorem rdropWhile_decomp (p : Char → Bool) (cs : List Char) :
    ∃ trail, cs = cs.rdropWhile p ++ trail ∧ ∀ c ∈ trail, p c = true := by
  refine ⟨(cs.reverse.takeWhile p).reverse, ?_, ?_⟩
  · have := List.takeWhile_append_dropWhile p cs.reverse
    have h2 := congrArg List.reverse this
    rw [List.reverse_append, List.reverse_reverse] at h2
    exact h2.symm
  · intro c hc
    exact List.mem_takeWhile_imp (List.mem_reverse.1 hc)

theorem trimSpaceChars_decomp (cs : List Char) :
    ∃ lead trail, cs = lead ++ trimSpaceChars cs ++ trail ∧
      (∀ c ∈ lead, isSpace c = true) ∧ (∀ c ∈ trail, isSpace c = true) := by
  obtain ⟨trail, htrail, hall⟩ := rdropWhile_decomp isSpace (cs.dropWhile isSpace)
  refine ⟨cs.takeWhile isSpace, trail, ?_, fun c hc => List.mem_takeWhile_imp hc, hall⟩
  unfold trimSpaceChars
  rw [List.append_assoc, ← htrail, List.takeWhile_append_dropWhile]

theorem trimSpaceChars_head (cs : List Char) (c : Char) (rest : List Char)
    (h : trimSpaceChars cs = c :: rest) : isSpace c = false := by
  obtain ⟨trail, htrail, _⟩ := rdropWhile_decomp isSpace (cs.dropWhile isSpace)
  unfold trimSpaceChars at h
  rw [h] at htrail
  exact dropWhile_head_not isSpace cs c (rest ++ trail) (by simpa using htrail)

theorem trimSpaceChars_last (cs : List Char) (init : List Char) (c : Char)
    (h : trimSpaceChars cs = init ++ [c]) : isSpace c = false :=
  rdropWhile_last_not' isSpace _ init c h

theorem trimSpaceChars_eq_self (cs : List Char)
    (hhead : ∀ c rest, cs = c :: rest → isSpace c = false)
    (hlast : ∀ init c, cs = init ++ [c] → isSpace c = false) : trimSpaceChars cs = cs := by
  unfold trimSpaceChars
  have h1 : cs.dropWhile isSpace = cs := by
    cases cs with
    | nil => rfl
    | cons c rest =>
      have := hhead c rest rfl
      simp [List.dropWhile, this]
  rw [h1, List.rdropWhile_eq_self_iff]
  intro hl
  have := hlast cs.dropLast (cs.getLast hl) (List.dropLast_append_getLast hl).symm
  simp [this]

theorem trimSpaceChars_idem (cs : List Char) :
    trimSpaceChars (trimSpaceChars cs) = trimSpaceChars cs :=
  trimSpaceChars_eq_self _ (fun c rest h => trimSpaceChars_head cs c rest h)
    (fun init c h => trimSpaceChars_last cs init c h)

theorem trimSpaceChars_eq_nil_iff (cs : List Char) :
    trimSpaceChars cs = [] ↔ ∀ c ∈ cs, isSpace c = true := by
  unfold trimSpaceChars
  rw [List.rdropWhile_eq_nil_iff]
  constructor
  · intro h
    have hnil : cs.dropWhile isSpace = [] := by
      cases hd : cs.dropWhile isSpace with
      | nil => rfl
      | cons c rest =>
        have h1 := dropWhile_head_not isSpace cs c rest hd
        have h2 := h c (by rw [hd]; exact List.mem_cons_self _ _)
        rw [h1] at h2
        cases h2
    exact List.dropWhile_eq_nil_iff.1 hnil
  · intro h c hc
    exact h c ((List.dropWhile_sublist isSpace).subset hc)

theorem trimSpaceChars_sublist (cs : List Char) : (trimSpaceChars cs).Sublist cs :=
  ((List.rdropWhile_prefix isSpace _).sublist).trans (List.dropWhile_sublist isSpace)

theorem len_pos_iff (s : String) : 0 < len s ↔ s.data ≠ [] := by
  unfold len
  cases s with
  | mk cs =>
    cases cs with
    | nil => simp [String.utf8ByteSize, String.utf8ByteSize.go]
    | cons c rest =>
      have := Char.utf8Size_pos c
      simp [String.utf8ByteSize, String.utf8ByteSize.go]
      omega

/-! ## Integers among the `float64` values -/

theorem Float64.toRat_of_nonneg (v : Float64) (h : 0 ≤ v.exponent) :
    v.toRat = ((v.mantissa * 2 ^ v.exponent.toNat : Int) : ℚ) := by
  unfold Float64.toRat
  have hp : (2 : ℚ) ^ v.exponent = (2 : ℚ) ^ v.exponent.toNat := by
    conv_lhs => rw [← Int.toNat_of_nonneg h]
    exact zpow_natCast _ _
  rw [hp]
  push_cast
  rfl

theorem Float64.toRat_of_neg (v : Float64) (h : ¬ 0 ≤ v.exponent) :
    v.toRat * ((2 ^ (-v.exponent).toNat : Int) : ℚ) = (v.mantissa : ℚ) := by
  unfold Float64.toRat
  have he : v.exponent = -((-v.exponent).toNat : Int) := by
    rw [Int.toNat_of_nonneg (by omega)]
    omega
  have hp : (2 : ℚ) ^ v.exponent = ((2 : ℚ) ^ (-v.exponent).toNat)⁻¹ := by
    conv_lhs => rw [he]
    rw [zpow_neg, zpow_natCast]
  have h2 : ((2 : ℚ) ^ (-v.exponent).toNat) ≠ 0 := pow_ne_zero _ (by norm_num)
  rw [hp]
  push_cast
  field_simp

theorem Float64.eqInt_iff (v : Float64) (i : Int) :
    v.eqInt i = true ↔ v.toRat = (i : ℚ) := by
  unfold Float64.eqInt
  by_cases h : 0 ≤ v.exponent
  · rw [if_pos h, decide_eq_true_eq, Float64.toRat_of_nonneg v h]
    exact Int.cast_inj.symm
  · rw [if_neg h, decide_eq_true_eq]
    have hneg := Float64.toRat_of_neg v h
    have h2 : (((2 : Int) ^ (-v.exponent).toNat : Int) : ℚ) ≠ 0 := by
      have : ((2 : Int) ^ (-v.exponent).toNat) ≠ 0 := pow_ne_zero _ (by norm_num)
      exact_mod_cast this
    constructor
    · intro hm
      have : v.toRat * (((2 : Int) ^ (-v.exponent).toNat : Int) : ℚ)
          = (i : ℚ) * (((2 : Int) ^ (-v.exponent).toNat : Int) : ℚ) := by
        rw [hneg, hm]
        push_cast
        ring
      exact mul_right_cancel₀ h2 this
    · intro hv
      rw [hv] at hneg
      exact_mod_cast hneg.symm

theorem Float64.truncate_of_toRat (v : Float64) (i : Int) (h : v.toRat = (i : ℚ)) :
    v.truncate = i := by
  have he := (Float64.eqInt_iff v i).2 h
  unfold Float64.eqInt at he
  unfold Float64.truncate
  by_cases hx : 0 ≤ v.exponent
  · rw [if_pos hx] at he ⊢
    exact of_decide_eq_true he
  · rw [if_neg hx] at he ⊢
    rw [of_decide_eq_true he]
    exact Int.mul_tdiv_cancel i (pow_ne_zero _ (by norm_num))

theorem roundNat_exact (m e : Nat) (hm : m < 2 ^ 53) : roundNat (m * 2 ^ e) = m * 2 ^ e := by
  unfold roundNat
  by_cases hsmall : m * 2 ^ e < 2 ^ 53
  · rw [if_pos hsmall]
  · rw [if_neg hsmall]
    have hn0 : m * 2 ^ e ≠ 0 := by
      intro h0
      rw [h0] at hsmall
      exact hsmall (by positivity)
    have hlog : 53 ≤ Nat.log2 (m * 2 ^ e) := (Nat.le_log2 hn0).2 (by omega)
    have hle : Nat.log2 (m * 2 ^ e) - 52 ≤ e := by
      by_contra hlt
      have h1 : 53 + e ≤ Nat.log2 (m * 2 ^ e) := by omega
      have h2 : 2 ^ (53 + e) ≤ m * 2 ^ e := (Nat.le_log2 hn0).1 h1
      have h3 : m * 2 ^ e < 2 ^ 53 * 2 ^ e :=
        Nat.mul_lt_mul_of_pos_right hm (by positivity)
      rw [← Nat.pow_add] at h3
      omega
    have hdvd : 2 ^ (Nat.log2 (m * 2 ^ e) - 52) ∣ m * 2 ^ e :=
      Dvd.dvd.mul_left (Nat.pow_dvd_pow 2 hle) m
    have hr : m * 2 ^ e % 2 ^ (Nat.log2 (m * 2 ^ e) - 52) = 0 := Nat.mod_eq_zero_of_dvd hdvd
    have hpos : 0 < 2 ^ (Nat.log2 (m * 2 ^ e) - 52 - 1) := by positivity
    simp only [hr]
    rw [if_neg (by omega)]
    exact Nat.div_mul_cancel hdvd

theorem float64OfInt_of_natAbs (i : Int) (h : roundNat i.natAbs = i.natAbs) :
    float64OfInt i = i := by
  unfold float64OfInt
  rw [h]
  by_cases hneg : i < 0
  · rw [if_pos hneg]
    omega
  · rw [if_neg hneg]
    omega

/-- The conversion `float64(i)` is exact for an integer that is the value of a `float64`. -/
theorem float64OfInt_of_toRat (v : Float64) (i : Int) (h : v.toRat = (i : ℚ)) :
    float64OfInt i = i := by
  apply float64OfInt_of_natAbs
  have he := (Float64.eqInt_iff v i).2 h
  unfold Float64.eqInt at he
  by_cases hx : 0 ≤ v.exponent
  · rw [if_pos hx] at he
    have := of_decide_eq_true he
    rw [← this, Int.natAbs_mul, Int.natAbs_pow]
    exact roundNat_exact _ _ v.mantissa_lt
  · rw [if_neg hx] at he
    have hm := of_decide_eq_true he
    have habs : v.mantissa.natAbs = i.natAbs * 2 ^ (-v.exponent).toNat := by
      rw [hm, Int.natAbs_mul, Int.natAbs_pow]
      rfl
    have hle : i.natAbs ≤ v.mantissa.natAbs := by
      rw [habs]
      exact Nat.le_mul_of_pos_right _ (by positivity)
    have := roundNat_exact i.natAbs 0 (lt_of_le_of_lt hle v.mantissa_lt)
    simpa using this

end Go

namespace Json2csv

/-! ## Go maps -/

theorem GoMap.get?_set {α : Type} (m : GoMap α) (k key : String) (v : α) :
    (GoMap.set m k v).get? key = if k = key then some v else m.get? key := by
  induction m with
  | nil => simp [GoMap.set, GoMap.get?]
  | cons p rest ih =>
    obtain ⟨k', w⟩ := p
    by_cases h : k' = k
    · subst h
      by_cases h2 : k' = key <;> simp [GoMap.set, GoMap.get?, h2]
    · by_cases h2 : k' = key
      · subst h2
        have h3 : ¬ k = k' := fun e => h e.symm
        simp [GoMap.set, GoMap.get?, h, h3]
      · simp [GoMap.set, GoMap.get?, h, h2, ih]

theorem GoMap.mem_keys_set {α : Type} (m : GoMap α) (k key : String) (v : α) :
    key ∈ (GoMap.set m k v).keys ↔ key = k ∨ key ∈ m.keys := by
  induction m with
  | nil => simp [GoMap.set, GoMap.keys]
  | cons p rest ih =>
    obtain ⟨k', w⟩ := p
    by_cases h : k' = k
    · subst h
      simp [GoMap.set, GoMap.keys]
    · simp only [GoMap.keys] at ih
      simp [GoMap.set, GoMap.keys, h, ih]
      tauto

theorem GoMap.nodup_keys_set {α : Type} (m : GoMap α) (k : String) (v : α)
    (nd : m.keys.Nodup) : (GoMap.set m k v).keys.Nodup := by
  induction m with
  | nil => simp [GoMap.set, GoMap.keys]
  | cons p rest ih =>
    obtain ⟨k', w⟩ := p
    have nd' : k' ∉ GoMap.keys rest ∧ (GoMap.keys rest).Nodup := by
      simpa [GoMap.keys] using nd
    by_cases h : k' = k
    · subst h
      simpa [GoMap.set, GoMap.keys] using nd
    · have hmem : k' ∉ (GoMap.set rest k v).keys := by
        rw [GoMap.mem_keys_set]
        rintro (e | e)
        · exact h e
        · exact nd'.1 e
      have := ih nd'.2
      simp only [GoMap.keys] at this hmem
      simp [GoMap.set, GoMap.keys, h, this]
      simpa using hmem

theorem GoMap.get?_eq_none_iff {α : Type} (m : GoMap α) (key : String) :
    m.get? key = none ↔ key ∉ m.keys := by
  induction m with
  | nil => simp [GoMap.get?, GoMap.keys]
  | cons p rest ih =>
    obtain ⟨k', w⟩ := p
    simp only [GoMap.keys] at ih
    by_cases h : k' = key
    · simp [GoMap.get?, GoMap.keys, h]
    · have h' : ¬ key = k' := fun e => h e.symm
      simp [GoMap.get?, GoMap.keys, h, h', ih]

theorem GoMap.get?_eq_some_iff {α : Type} (m : GoMap α) (key : String) (v : α)
    (nd : m.keys.Nodup) : m.get? key = some v ↔ (key, v) ∈ m := by
  induction m with
  | nil => simp [GoMap.get?]
  | cons p rest ih =>
    obtain ⟨k', w⟩ := p
    have nd' : k' ∉ GoMap.keys rest ∧ (GoMap.keys rest).Nodup := by
      simpa [GoMap.keys] using nd
    by_cases h : k' = key
    · subst h
      have : (k', v) ∉ rest := fun hm => nd'.1 (List.mem_map.2 ⟨(k', v), hm, rfl⟩)
      simp [GoMap.get?, this]
      exact eq_comm
    · have h' : ¬ key = k' := fun e => h e.symm
      simp [GoMap.get?, h, h', ih nd'.2]

theorem GoMap.mem_keys_of_mem {α : Type} {m : GoMap α} {key : String} {v : α}
    (h : (key, v) ∈ m) : key ∈ m.keys :=
  List.mem_map.2 ⟨(key, v), h, rfl⟩

theorem GoMap.nodup_of_nodup_keys {α : Type} {m : GoMap α} (nd : m.keys.Nodup) : m.Nodup :=
  List.Nodup.of_map _ nd

theorem GoMap.get?_perm {α : Type} {m m' : GoMap α} (h : m.Perm m') (nd : m.keys.Nodup)
    (key : String) : m.get? key = m'.get? key := by
  have nd' : m'.keys.Nodup := (h.map Prod.fst).nodup_iff.1 nd
  cases hg : m.get? key with
  | none =>
    have h1 := (GoMap.get?_eq_none_iff m key).1 hg
    have h2 : key ∉ m'.keys := fun hm => h1 ((h.map Prod.fst).mem_iff.2 hm)
    exact ((GoMap.get?_eq_none_iff m' key).2 h2).symm
  | some v =>
    have h1 := (GoMap.get?_eq_some_iff m key v nd).1 hg
    exact ((GoMap.get?_eq_some_iff m' key v nd').2 (h.mem_iff.1 h1)).symm

/-! ## Counting -/

theorem incr_getD (m : GoMap Nat) (key k : String) :
    ((incr m key).get? k).getD 0 = (m.get? k).getD 0 + (if key = k then 1 else 0) := by
  unfold incr
  rw [GoMap.get?_set]
  by_cases h : key = k
  · subst h; simp
  · simp [h]

theorem countRow_getD (keep : String → Value → Bool) (row : Record) (m : GoMap Nat)
    (k : String) :
    ((countRow keep m row).get? k).getD 0 = (m.get? k).getD 0 + hits keep k row := by
  induction row generalizing m with
  | nil => simp [countRow, hits]
  | cons p rest ih =>
    obtain ⟨key, v⟩ := p
    have ih' := fun m' => ih m'
    simp only [countRow, hits] at ih' ⊢
    simp only [List.foldl_cons]
    by_cases hk : keep key v = true
    · simp only [hk, if_true]
      rw [ih', incr_getD]
      by_cases h : key = k
      · subst h
        simp [List.filter_cons, hk]
        omega
      · simp [List.filter_cons, h]
    · simp only [hk]
      rw [ih']
      simp [List.filter_cons, hk]

theorem countRow_mem_keys (keep : String → Value → Bool) (row : Record) (m : GoMap Nat)
    (k : String) :
    k ∈ (countRow keep m row).keys ↔
      k ∈ m.keys ∨ ∃ v, (k, v) ∈ row ∧ keep k v = true := by
  induction row generalizing m with
  | nil => simp [countRow]
  | cons p rest ih =>
    obtain ⟨key, v⟩ := p
    have ih' := fun m' => ih m'
    simp only [countRow] at ih' ⊢
    simp only [List.foldl_cons]
    by_cases hk : keep key v = true
    · simp only [hk, if_true]
      rw [ih']
      unfold incr
      rw [GoMap.mem_keys_set]
      constructor
      · rintro ((h | h) | ⟨w, hw, hkw⟩)
        · subst h; exact Or.inr ⟨v, List.mem_cons_self _ _, hk⟩
        · exact Or.inl h
        · exact Or.inr ⟨w, List.mem_cons_of_mem _ hw, hkw⟩
      · rintro (h | ⟨w, hw, hkw⟩)
        · exact Or.inl (Or.inr h)
        · rcases List.mem_cons.1 hw with e | e
          · injection e with e1 e2
            exact Or.inl (Or.inl e1)
          · exact Or.inr ⟨w, e, hkw⟩
    · simp only [hk]
      rw [ih']
      constructor
      · rintro (h | ⟨w, hw, hkw⟩)
        · exact Or.inl h
        · exact Or.inr ⟨w, List.mem_cons_of_mem _ hw, hkw⟩
      · rintro (h | ⟨w, hw, hkw⟩)
        · exact Or.inl h
        · rcases List.mem_cons.1 hw with e | e
          · injection e with e1 e2
            subst e1; subst e2
            exact absurd hkw hk
          · exact Or.inr ⟨w, e, hkw⟩

theorem countRow_nodup (keep : String → Value → Bool) (row : Record) (m : GoMap Nat)
    (nd : m.keys.Nodup) : (countRow keep m row).keys.Nodup := by
  induction row generalizing m with
  | nil => simpa [countRow] using nd
  | cons p rest ih =>
    obtain ⟨key, v⟩ := p
    have ih' := fun m' => ih m'
    simp only [countRow] at ih' ⊢
    simp only [List.foldl_cons]
    by_cases hk : keep key v = true
    · simp only [hk, if_true]
      exact ih' _ (GoMap.nodup_keys_set m key _ nd)
    · simp only [hk]
      exact ih' _ nd

theorem countData_getD (keep : String → Value → Bool) (data : List Record) (m : GoMap Nat)
    (k : String) :
    ((data.foldl (countRow keep) m).get? k).getD 0
      = (m.get? k).getD 0 + (data.map (hits keep k)).sum := by
  induction data generalizing m with
  | nil => simp
  | cons row rest ih =>
    simp only [List.foldl_cons, List.map_cons, List.sum_cons]
    rw [ih, countRow_getD]
    omega

theorem countData_mem_keys (keep : String → Value → Bool) (data : List Record)
    (m : GoMap Nat) (k : String) :
    k ∈ (data.foldl (countRow keep) m).keys ↔
      k ∈ m.keys ∨ ∃ row ∈ data, ∃ v, (k, v) ∈ row ∧ keep k v = true := by
  induction data generalizing m with
  | nil => simp
  | cons row rest ih =>
    simp only [List.foldl_cons]
    rw [ih, countRow_mem_keys]
    constructor
    · rintro ((h | h) | ⟨r, hr, h⟩)
      · exact Or.inl h
      · exact Or.inr ⟨row, List.mem_cons_self _ _, h⟩
      · exact Or.inr ⟨r, List.mem_cons_of_mem _ hr, h⟩
    · rintro (h | ⟨r, hr, h⟩)
      · exact Or.inl (Or.inl h)
      · rcases List.mem_cons.1 hr with e | e
        · subst e; exact Or.inl (Or.inr h)
        · exact Or.inr ⟨r, e, h⟩

theorem countData_nodup (keep : String → Value → Bool) (data : List Record) (m : GoMap Nat)
    (nd : m.keys.Nodup) : (data.foldl (countRow keep) m).keys.Nodup := by
  induction data generalizing m with
  | nil => simpa using nd
  | cons row rest ih =>
    simp only [List.foldl_cons]
    exact ih _ (countRow_nodup keep row m nd)

/-! ## The comparison function and the sort -/

theorem stringsCompare_le_zero (a b : String) :
    stringsCompare a b ≤ 0 ↔ a = b ∨ a.toList < b.toList := by
  unfold stringsCompare
  by_cases h : a = b
  · simp [h]
  · by_cases h2 : a.toList < b.toList
    · simp only [h, if_false, h2, if_true, false_or, iff_true]; decide
    · simp only [h, if_false, h2, false_or, iff_false]; decide

theorem toList_injective {a b : String} (h : a.toList = b.toList) : a = b := by
  cases a; cases b; simp_all [String.toList]

theorem cmpCountKey_le_zero (ca cb : Nat) (a b : String) :
    cmpCountKey ca cb a b ≤ 0 ↔ cb < ca ∨ (ca = cb ∧ (a = b ∨ a.toList < b.toList)) := by
  unfold cmpCountKey
  by_cases h : ca = cb
  · subst h
    simp [stringsCompare_le_zero]
  · simp only [ne_eq, h, not_false_eq_true, if_true, false_and, or_false]
    omega

theorem cmpCountKey_total (ca cb : Nat) (a b : String) :
    cmpCountKey ca cb a b ≤ 0 ∨ cmpCountKey cb ca b a ≤ 0 := by
  rw [cmpCountKey_le_zero, cmpCountKey_le_zero]
  rcases Nat.lt_trichotomy ca cb with h | h | h
  · exact Or.inr (Or.inl h)
  · rcases lt_trichotomy a.toList b.toList with h2 | h2 | h2
    · exact Or.inl (Or.inr ⟨h, Or.inr h2⟩)
    · exact Or.inl (Or.inr ⟨h, Or.inl (toList_injective h2)⟩)
    · exact Or.inr (Or.inr ⟨h.symm, Or.inr h2⟩)
  · exact Or.inl (Or.inl h)

theorem cmpCountKey_trans (ca cb cc : Nat) (a b c : String)
    (h1 : cmpCountKey ca cb a b ≤ 0) (h2 : cmpCountKey cb cc b c ≤ 0) :
    cmpCountKey ca cc a c ≤ 0 := by
  rw [cmpCountKey_le_zero] at h1 h2 ⊢
  rcases h1 with h1 | ⟨e1, h1⟩
  · rcases h2 with h2 | ⟨e2, h2⟩
    · exact Or.inl (by omega)
    · exact Or.inl (by omega)
  · rcases h2 with h2 | ⟨e2, h2⟩
    · exact Or.inl (by omega)
    · refine Or.inr ⟨e1.trans e2, ?_⟩
      rcases h1 with h1 | h1
      · subst h1; exact h2
      · rcases h2 with h2 | h2
        · subst h2; exact Or.inr h1
        · exact Or.inr (lt_trans h1 h2)

theorem cmpCountKey_antisymm (ca cb : Nat) (a b : String)
    (h1 : cmpCountKey ca cb a b ≤ 0) (h2 : cmpCountKey cb ca b a ≤ 0) :
    ca = cb ∧ a = b := by
  rw [cmpCountKey_le_zero] at h1 h2
  rcases h1 with h1 | ⟨e1, h1⟩
  · rcases h2 with h2 | ⟨e2, _⟩ <;> omega
  · rcases h2 with h2 | ⟨_, h2⟩
    · omega
    · refine ⟨e1, ?_⟩
      rcases h1 with h1 | h1
      · exact h1
      · rcases h2 with h2 | h2
        · exact h2.symm
        · exact absurd h2 (lt_asymm h1)

theorem sortFunc_perm {α : Type} (cmp : α → α → Int) (l : List α) :
    (sortFunc cmp l).Perm l :=
  List.perm_insertionSort _ l

theorem sortFunc_sorted {α : Type} (cmp : α → α → Int)
    (total : ∀ a b, cmp a b ≤ 0 ∨ cmp b a ≤ 0)
    (trans : ∀ a b c, cmp a b ≤ 0 → cmp b c ≤ 0 → cmp a c ≤ 0) (l : List α) :
    (sortFunc cmp l).Sorted (fun a b => cmp a b ≤ 0) := by
  haveI : IsTotal α (fun a b => cmp a b ≤ 0) := ⟨total⟩
  haveI : IsTrans α (fun a b => cmp a b ≤ 0) := ⟨trans⟩
  exact List.sorted_insertionSort _ l

/-- Any ascending arrangement of the elements is the one `sortFunc` returns: the result
does not depend on the sorting algorithm or on the order of the input. -/
theorem sortFunc_unique {α : Type} (cmp : α → α → Int)
    (total : ∀ a b, cmp a b ≤ 0 ∨ cmp b a ≤ 0)
    (trans : ∀ a b c, cmp a b ≤ 0 → cmp b c ≤ 0 → cmp a c ≤ 0)
    (antisymm : ∀ a b, cmp a b ≤ 0 → cmp b a ≤ 0 → a = b)
    {l l' : List α} (hp : l'.Perm l) (hs : l'.Sorted (fun a b => cmp a b ≤ 0)) :
    sortFunc cmp l = l' := by
  haveI : IsAntisymm α (fun a b => cmp a b ≤ 0) := ⟨antisymm⟩
  exact List.eq_of_perm_of_sorted ((sortFunc_perm cmp l).trans hp.symm)
    (sortFunc_sorted cmp total trans l) hs

theorem sortFunc_congr_perm {α : Type} (cmp : α → α → Int)
    (total : ∀ a b, cmp a b ≤ 0 ∨ cmp b a ≤ 0)
    (trans : ∀ a b c, cmp a b ≤ 0 → cmp b c ≤ 0 → cmp a c ≤ 0)
    (antisymm : ∀ a b, cmp a b ≤ 0 → cmp b a ≤ 0 → a = b)
    {l l' : List α} (hp : l.Perm l') : sortFunc cmp l = sortFunc cmp l' :=
  sortFunc_unique cmp total trans antisymm ((sortFunc_perm cmp l').trans hp.symm)
    (sortFunc_sorted cmp total trans l')

/-! ## Merge rules -/

theorem sourcesOf_cons_eq (t s : String) (rest : List (String × String)) :
    sourcesOf ((t, s) :: rest) t = s :: sourcesOf rest t := by
  simp [sourcesOf, List.filter_cons]

theorem sourcesOf_cons_ne (t s target : String) (rest : List (String × String))
    (h : t ≠ target) : sourcesOf ((t, s) :: rest) target = sourcesOf rest target := by
  simp [sourcesOf, List.filter_cons, h]

theorem mergeMap_fold_get? (assignments : List (String × String)) (m : GoMap (List String))
    (target : String) :
    (assignments.foldl (fun m a => GoMap.set m a.1 (((m.get? a.1).getD []) ++ [a.2])) m).get?
        target
      = if sourcesOf assignments target = [] then m.get? target
        else some ((m.get? target).getD [] ++ sourcesOf assignments target) := by
  induction assignments generalizing m with
  | nil => simp [sourcesOf]
  | cons a rest ih =>
    obtain ⟨t, s⟩ := a
    simp only [List.foldl_cons]
    rw [ih, GoMap.get?_set]
    by_cases h : t = target
    · subst h
      rw [sourcesOf_cons_eq]
      by_cases h2 : sourcesOf rest t = []
      · simp [h2]
      · simp [h2]
    · rw [sourcesOf_cons_ne t s target rest h]
      simp [h]

theorem mergeMap_get? (assignments : List (String × String)) (target : String) :
    (mergeMap assignments).get? target
      = if sourcesOf assignments target = [] then none
        else some (sourcesOf assignments target) := by
  unfold mergeMap
  rw [mergeMap_fold_get?]
  simp [GoMap.get?]

theorem mergeSourceKeys_fold (assignments : List (String × String)) (m : GoMap Bool)
    (name : String) :
    ((assignments.foldl (fun m a => if a.2 ≠ a.1 then GoMap.set m a.2 true else m) m).get?
        name).getD false = true
      ↔ (m.get? name).getD false = true ∨ IsMergeSourceKey assignments name := by
  induction assignments generalizing m with
  | nil => simp [IsMergeSourceKey]
  | cons a rest ih =>
    obtain ⟨t, s⟩ := a
    simp only [List.foldl_cons]
    rw [ih]
    by_cases h : s = t
    · subst h
      simp [IsMergeSourceKey]
    · simp only [ne_eq, h, not_false_eq_true, if_true]
      rw [GoMap.get?_set]
      by_cases h2 : s = name
      · subst h2
        simp [IsMergeSourceKey, h]
      · simp [IsMergeSourceKey, h, h2]

theorem mergeSourceKeys_get? (assignments : List (String × String)) (name : String) :
    ((mergeSourceKeys assignments).get? name).getD false = true
      ↔ IsMergeSourceKey assignments name := by
  unfold mergeSourceKeys
  rw [mergeSourceKeys_fold]
  simp [GoMap.get?]

theorem discoverable_iff (cfg : Config) (key : String) :
    discoverable cfg key = true ↔
      key ∉ cfg.headers ∧ key ∉ cfg.excludeHeaders ∧ ¬ IsMergeSourceKey cfg.assignments key := by
  unfold discoverable
  rw [← mergeSourceKeys_get?]
  simp [and_assoc]

/-! ## Header resolution -/

theorem mem_filteredHeaders (cfg : Config) (headers : List String) (h : String) :
    h ∈ filteredHeaders cfg headers ↔ h ∈ headers ∧ h ∉ cfg.excludeHeaders := by
  simp [filteredHeaders]

theorem filteredHeaders_append (cfg : Config) (l₁ l₂ : List String) :
    filteredHeaders cfg (l₁ ++ l₂) = filteredHeaders cfg l₁ ++ filteredHeaders cfg l₂ := by
  simp [filteredHeaders]

theorem filteredHeaders_eq_self (cfg : Config) (l : List String)
    (h : ∀ k ∈ l, k ∉ cfg.excludeHeaders) : filteredHeaders cfg l = l := by
  unfold filteredHeaders
  rw [List.filter_eq_self]
  intro k hk
  simpa using h k hk

theorem keyPopularity_nodup (cfg : Config) (data : List Record) :
    (keyPopularity cfg data).keys.Nodup := by
  unfold keyPopularity
  split
  · exact countData_nodup _ data [] (by simp [GoMap.keys])
  · exact countData_nodup _ data [] (by simp [GoMap.keys])

theorem mem_keys_keyPopularity_append (cfg : Config) (data : List Record) (k : String)
    (hmode : cfg.appendAllHeaders = true) :
    k ∈ (keyPopularity cfg data).keys ↔
      discoverable cfg k = true ∧ ∃ row ∈ data, ∃ v, (k, v) ∈ row ∧ v.nonEmpty = true := by
  unfold keyPopularity
  rw [if_pos hmode, countData_mem_keys]
  simp only [GoMap.keys, List.map_nil, List.not_mem_nil, false_or, Bool.and_eq_true]
  constructor
  · rintro ⟨row, hr, v, hv, hne, hd⟩
    exact ⟨hd, row, hr, v, hv, hne⟩
  · rintro ⟨hd, row, hr, v, hv, hne⟩
    exact ⟨row, hr, v, hv, hne, hd⟩

theorem discovered_perm_append (cfg : Config) (data : List Record)
    (hmode : cfg.appendAllHeaders = true) :
    (discovered cfg data).Perm (keyPopularity cfg data).keys := by
  unfold discovered sortedKeys
  rw [if_pos hmode]
  exact (sortFunc_perm _ _).map Prod.fst

theorem discovered_perm_default (cfg : Config) (data : List Record)
    (hmode : cfg.appendAllHeaders = false) :
    (discovered cfg data).Perm (additionalKeys cfg (data.headD [])) := by
  unfold discovered
  simp only [hmode, Bool.false_eq_true, if_false]
  exact sortFunc_perm _ _

theorem mem_additionalKeys (cfg : Config) (first : Record) (k : String) :
    k ∈ additionalKeys cfg first ↔ k ∈ first.keys ∧ discoverable cfg k = true := by
  unfold additionalKeys GoMap.keys
  simp only [List.mem_map, List.mem_filter]
  constructor
  · rintro ⟨kv, ⟨hm, hd⟩, rfl⟩
    exact ⟨⟨kv, hm, rfl⟩, hd⟩
  · rintro ⟨⟨kv, hm, rfl⟩, hd⟩
    exact ⟨kv, ⟨hm, hd⟩, rfl⟩

theorem mem_discovered_append (cfg : Config) (data : List Record) (k : String)
    (hmode : cfg.appendAllHeaders = true) :
    k ∈ discovered cfg data ↔
      discoverable cfg k = true ∧ ∃ row ∈ data, ∃ v, (k, v) ∈ row ∧ v.nonEmpty = true := by
  rw [(discovered_perm_append cfg data hmode).mem_iff,
    mem_keys_keyPopularity_append cfg data k hmode]

theorem mem_discovered_default (cfg : Config) (data : List Record) (k : String)
    (hmode : cfg.appendAllHeaders = false) :
    k ∈ discovered cfg data ↔ k ∈ (data.headD []).keys ∧ discoverable cfg k = true := by
  rw [(discovered_perm_default cfg data hmode).mem_iff, mem_additionalKeys]

theorem discoverable_of_mem_discovered (cfg : Config) (data : List Record) (k : String)
    (h : k ∈ discovered cfg data) : discoverable cfg k = true := by
  cases hmode : cfg.appendAllHeaders with
  | true => exact ((mem_discovered_append cfg data k hmode).1 h).1
  | false => exact ((mem_discovered_default cfg data k hmode).1 h).2

theorem finalHeaders_eq (cfg : Config) (data : List Record) :
    finalHeaders cfg data = filteredHeaders cfg cfg.headers ++ discovered cfg data := by
  unfold finalHeaders
  rw [filteredHeaders_append, filteredHeaders_eq_self cfg (discovered cfg data)]
  intro k hk
  exact ((discoverable_iff cfg k).1 (discoverable_of_mem_discovered cfg data k hk)).2.1

theorem additionalKeys_nodup (cfg : Config) (first : Record) (nd : first.keys.Nodup) :
    (additionalKeys cfg first).Nodup := by
  unfold additionalKeys
  have h : (first.filter (fun kv => discoverable cfg kv.1)).Sublist first :=
    List.filter_sublist _
  exact (h.map Prod.fst).nodup nd

theorem discovered_nodup (cfg : Config) (data : List Record)
    (nd : cfg.appendAllHeaders = false → (data.headD []).keys.Nodup) :
    (discovered cfg data).Nodup := by
  cases hmode : cfg.appendAllHeaders with
  | true =>
    exact (discovered_perm_append cfg data hmode).nodup_iff.2 (keyPopularity_nodup cfg data)
  | false =>
    exact (discovered_perm_default cfg data hmode).nodup_iff.2
      (additionalKeys_nodup cfg _ (nd hmode))

theorem main_eq_ok (fmt : Fmt) (cfg : Config) (data : List Record) (hne : data ≠ []) :
    main fmt cfg data = .ok
      { header := finalHeaders cfg data
        rows := data.map (values fmt cfg (finalHeaders cfg data))
        warnings := (data.enum.map
          (fun ir => rowWarnings cfg (finalHeaders cfg data) ir.1 ir.2)).flatten } := by
  unfold main
  have : data.length ≠ 0 := fun h => hne (List.length_eq_zero.1 h)
  simp [this]

theorem headD_eq_head (data : List Record) (hne : data ≠ []) :
    data.headD [] = data.head hne := by
  cases data with
  | nil => exact absurd rfl hne
  | cons r rest => rfl

theorem count_filteredHeaders (cfg : Config) (l : List String) (name : String)
    (hex : name ∉ cfg.excludeHeaders) :
    (filteredHeaders cfg l).count name = l.count name := by
  unfold filteredHeaders
  rw [List.count_filter]
  simpa using hex

/-! ## Row projection -/

theorem firstSource_of_first (row : Record) (srcs : List String) (j : Nat) (s : String)
    (v : Value) (hs : srcs[j]? = some s) (hv : row.get? s = some v)
    (hne : v.nonEmpty = true)
    (hbefore : ∀ j', j' < j → ∀ s', srcs[j']? = some s' → ¬ HasValue row s') :
    firstSource row srcs = v := by
  induction srcs generalizing j with
  | nil => simp at hs
  | cons s0 rest ih =>
    cases j with
    | zero =>
      simp only [List.getElem?_cons_zero, Option.some.injEq] at hs
      subst hs
      simp [firstSource, hv, hne]
    | succ j =>
      have h0 : ¬ HasValue row s0 := hbefore 0 (Nat.succ_pos j) s0 (by simp)
      have hrec : firstSource row rest = v := by
        apply ih j
        · simpa using hs
        · intro j' hj' s' hs'
          exact hbefore (j' + 1) (Nat.succ_lt_succ hj') s' (by simpa using hs')
      unfold firstSource
      cases hg : row.get? s0 with
      | none => simpa using hrec
      | some w =>
        have hw : ¬ w.nonEmpty = true := fun h => h0 ⟨w, hg, h⟩
        simp [hw, hrec]

theorem firstSource_of_none (row : Record) (srcs : List String)
    (hnone : ∀ s ∈ srcs, ¬ HasValue row s) : firstSource row srcs = .null := by
  induction srcs with
  | nil => rfl
  | cons s0 rest ih =>
    have h0 : ¬ HasValue row s0 := hnone s0 (List.mem_cons_self _ _)
    have hrec := ih (fun s hs => hnone s (List.mem_cons_of_mem _ hs))
    unfold firstSource
    cases hg : row.get? s0 with
    | none => simpa using hrec
    | some w =>
      have hw : ¬ w.nonEmpty = true := fun h => h0 ⟨w, hg, h⟩
      simp [hw, hrec]

theorem selectValue_target_own (cfg : Config) (row : Record) (target : String) (v : Value)
    (hv : row.get? target = some v) (hne : v.nonEmpty = true) :
    selectValue cfg row target = v := by
  unfold selectValue
  cases (mergeMap cfg.assignments).get? target with
  | none => simp [hv]
  | some srcs => simp [hv, hne]

theorem selectValue_target_sources (cfg : Config) (row : Record) (target : String)
    (ht : sourcesOf cfg.assignments target ≠ []) (hown : ¬ HasValue row target) :
    selectValue cfg row target = firstSource row (sourcesOf cfg.assignments target) := by
  unfold selectValue
  rw [mergeMap_get?, if_neg ht]
  cases hg : row.get? target with
  | none => rfl
  | some w =>
    have hw : ¬ w.nonEmpty = true := fun h => hown ⟨w, hg, h⟩
    simp [hw]

theorem values_getElem? (fmt : Fmt) (cfg : Config) (headers : List String) (row : Record)
    (i : Nat) (header : String) (hi : headers[i]? = some header) :
    (values fmt cfg headers row)[i]? = some (coerce fmt (selectValue cfg row header)) := by
  simp [values, List.getElem?_map, hi]

/-! ## Popularity -/

theorem holdsValue_iff (row : Record) (name : String) :
    holdsValue row name = true ↔ HasValue row name := by
  unfold holdsValue HasValue
  cases row.get? name with
  | none => simp
  | some v => simp

theorem hits_eq_zero_of_not_mem (keep : String → Value → Bool) (k : String) (row : Record)
    (h : k ∉ row.keys) : hits keep k row = 0 := by
  unfold hits
  rw [List.length_eq_zero, List.filter_eq_nil_iff]
  intro kv hkv hp
  simp only [Bool.and_eq_true, decide_eq_true_eq] at hp
  exact h (List.mem_map.2 ⟨kv, hkv, hp.1⟩)

theorem hits_of_nodup (d : String → Bool) (k : String) (row : Record)
    (nd : row.keys.Nodup) :
    hits (fun key value => value.nonEmpty && d key) k row
      = if holdsValue row k && d k then 1 else 0 := by
  induction row with
  | nil => simp [hits, holdsValue, GoMap.get?]
  | cons p rest ih =>
    obtain ⟨k0, v0⟩ := p
    have nd' : k0 ∉ GoMap.keys rest ∧ (GoMap.keys rest).Nodup := by
      simpa [GoMap.keys] using nd
    by_cases h : k0 = k
    · subst h
      have hz := hits_eq_zero_of_not_mem (fun key value => value.nonEmpty && d key) k0 rest
        nd'.1
      unfold hits at hz ⊢
      have hz' : (List.filter (fun kv => decide (kv.1 = k0) && (kv.2.nonEmpty && d kv.1))
          rest).length = 0 := hz
      simp only [List.filter_cons, holdsValue, GoMap.get?, if_true, decide_True, Bool.true_and]
      by_cases hk : (v0.nonEmpty && d k0) = true
      · rw [if_pos hk, if_pos hk, List.length_cons, hz']
      · rw [if_neg hk, if_neg hk, hz']
    · have ih' := ih nd'.2
      unfold hits at ih' ⊢
      simp only [List.filter_cons, holdsValue, GoMap.get?, h, if_false, decide_False,
        Bool.false_and] at ih' ⊢
      simpa [holdsValue] using ih'

theorem sum_hits_eq_popularity (d : String → Bool) (k : String) (data : List Record)
    (nd : ∀ row ∈ data, row.keys.Nodup) (hd : d k = true) :
    (data.map (hits (fun key value => value.nonEmpty && d key) k)).sum = popularity data k := by
  induction data with
  | nil => simp [popularity]
  | cons row rest ih =>
    have ih' := ih (fun r hr => nd r (List.mem_cons_of_mem _ hr))
    simp only [List.map_cons, List.sum_cons, popularity, List.countP_cons] at ih' ⊢
    rw [ih', hits_of_nodup d k row (nd row (List.mem_cons_self _ _)), hd, Bool.and_true]
    omega

theorem GoMap.get?_of_mem_keys (m : GoMap Nat) (k : String) (h : k ∈ m.keys) :
    m.get? k = some ((m.get? k).getD 0) := by
  cases hg : m.get? k with
  | none => exact absurd h ((GoMap.get?_eq_none_iff m k).1 hg)
  | some c => rfl

theorem keyPopularity_getD_append (cfg : Config) (data : List Record) (k : String)
    (nd : ∀ row ∈ data, row.keys.Nodup) (hmode : cfg.appendAllHeaders = true)
    (hd : discoverable cfg k = true) :
    ((keyPopularity cfg data).get? k).getD 0 = popularity data k := by
  unfold keyPopularity
  rw [if_pos hmode, countData_getD]
  simp only [GoMap.get?, Option.getD_none, Nat.zero_add]
  exact sum_hits_eq_popularity (discoverable cfg) k data nd hd

theorem keyPopularity_getD_default (cfg : Config) (data : List Record) (k : String)
    (nd : ∀ row ∈ data, row.keys.Nodup) (hmode : cfg.appendAllHeaders = false) :
    ((keyPopularity cfg data).get? k).getD 0 = popularity data k := by
  unfold keyPopularity
  simp only [hmode, Bool.false_eq_true, if_false]
  rw [countData_getD]
  simp only [GoMap.get?, Option.getD_none, Nat.zero_add]
  have := sum_hits_eq_popularity (fun _ => true) k data nd rfl
  simpa using this

/-! ## Order of the discovered names -/

theorem count_of_mem_sortedKeys (cfg : Config) (data : List Record) (p : String × Nat)
    (nd : ∀ row ∈ data, row.keys.Nodup) (hmode : cfg.appendAllHeaders = true)
    (hp : p ∈ sortedKeys cfg data) : p.2 = popularity data p.1 := by
  have hm : p ∈ keyPopularity cfg data := (sortFunc_perm _ _).mem_iff.1 hp
  obtain ⟨k, c⟩ := p
  have hk : k ∈ (keyPopularity cfg data).keys := GoMap.mem_keys_of_mem hm
  have hg := (GoMap.get?_eq_some_iff _ k c (keyPopularity_nodup cfg data)).2 hm
  have hd := ((mem_keys_keyPopularity_append cfg data k hmode).1 hk).1
  have := keyPopularity_getD_append cfg data k nd hmode hd
  rw [hg] at this
  simpa using this

theorem discovered_sorted (cfg : Config) (data : List Record)
    (nd : ∀ row ∈ data, row.keys.Nodup) :
    (discovered cfg data).Pairwise
      (fun a b => cmpCountKey (popularity data a) (popularity data b) a b ≤ 0) := by
  cases hmode : cfg.appendAllHeaders with
  | true =>
    have hs : (sortedKeys cfg data).Pairwise
        (fun a b => cmpCountKey a.2 b.2 a.1 b.1 ≤ 0) :=
      sortFunc_sorted (fun a b : String × Nat => cmpCountKey a.2 b.2 a.1 b.1)
        (fun a b => cmpCountKey_total _ _ _ _)
        (fun a b c => cmpCountKey_trans _ _ _ _ _ _) _
    unfold discovered
    rw [if_pos hmode, List.pairwise_map]
    refine hs.imp_of_mem ?_
    intro p q hp hq h
    rw [← count_of_mem_sortedKeys cfg data p nd hmode hp,
      ← count_of_mem_sortedKeys cfg data q nd hmode hq]
    exact h
  | false =>
    have hfun : (fun a b : String =>
        cmpCountKey (((keyPopularity cfg data).get? a).getD 0)
          (((keyPopularity cfg data).get? b).getD 0) a b)
        = (fun a b => cmpCountKey (popularity data a) (popularity data b) a b) := by
      funext a b
      rw [keyPopularity_getD_default cfg data a nd hmode,
        keyPopularity_getD_default cfg data b nd hmode]
    unfold discovered
    simp only [hmode, Bool.false_eq_true, if_false]
    rw [hfun]
    exact sortFunc_sorted
      (fun a b : String => cmpCountKey (popularity data a) (popularity data b) a b)
      (fun a b => cmpCountKey_total _ _ _ _)
      (fun a b c => cmpCountKey_trans _ _ _ _ _ _) _

theorem headD_mem (data : List Record) (hne : data ≠ []) : data.headD [] ∈ data := by
  cases data with
  | nil => exact absurd rfl hne
  | cons r rest => exact List.mem_cons_self _ _

theorem filteredHeaders_eq_filter (cfg : Config) (l : List String) :
    filteredHeaders cfg l = l.filter (fun h => decide (h ∉ cfg.excludeHeaders)) := by
  unfold filteredHeaders
  congr 1
  funext h
  simp

/-! ## Independence of the enumeration order -/

theorem hits_perm (keep : String → Value → Bool) (k : String) {row row' : Record}
    (h : row.Perm row') : hits keep k row = hits keep k row' := by
  unfold hits
  exact (h.filter _).length_eq

theorem sum_hits_congr (keep : String → Value → Bool) (k : String) {data data' : List Record}
    (h : List.Forall₂ List.Perm data data') :
    (data.map (hits keep k)).sum = (data'.map (hits keep k)).sum := by
  induction h with
  | nil => rfl
  | cons hr _ ih => simp only [List.map_cons, List.sum_cons, ih, hits_perm keep k hr]

theorem exists_entry_congr (keep : String → Value → Bool) (k : String)
    {data data' : List Record} (h : List.Forall₂ List.Perm data data') :
    (∃ row ∈ data, ∃ v, (k, v) ∈ row ∧ keep k v = true) →
      ∃ row ∈ data', ∃ v, (k, v) ∈ row ∧ keep k v = true := by
  induction h with
  | nil => simp
  | cons hr _ ih =>
    rintro ⟨row, hrow, v, hv, hk⟩
    rcases List.mem_cons.1 hrow with e | e
    · subst e
      exact ⟨_, List.mem_cons_self _ _, v, hr.mem_iff.1 hv, hk⟩
    · obtain ⟨row', hrow', w, hw, hkw⟩ := ih ⟨row, e, v, hv, hk⟩
      exact ⟨row', List.mem_cons_of_mem _ hrow', w, hw, hkw⟩

theorem forall₂_perm_symm {data data' : List Record}
    (h : List.Forall₂ List.Perm data data') : List.Forall₂ List.Perm data' data := by
  induction h with
  | nil => exact List.Forall₂.nil
  | cons hr _ ih => exact List.Forall₂.cons hr.symm ih

theorem countData_get?_congr (keep : String → Value → Bool) (k : String)
    {data data' : List Record} (h : List.Forall₂ List.Perm data data') :
    (data.foldl (countRow keep) []).get? k = (data'.foldl (countRow keep) []).get? k := by
  have hkeys : k ∈ (data.foldl (countRow keep) []).keys ↔
      k ∈ (data'.foldl (countRow keep) []).keys := by
    rw [countData_mem_keys, countData_mem_keys]
    constructor
    · rintro (h0 | h1)
      · exact Or.inl h0
      · exact Or.inr (exists_entry_congr keep k h h1)
    · rintro (h0 | h1)
      · exact Or.inl h0
      · exact Or.inr (exists_entry_congr keep k (forall₂_perm_symm h) h1)
  have hget : ((data.foldl (countRow keep) []).get? k).getD 0
      = ((data'.foldl (countRow keep) []).get? k).getD 0 := by
    rw [countData_getD, countData_getD, sum_hits_congr keep k h]
  by_cases hk : k ∈ (data.foldl (countRow keep) []).keys
  · rw [GoMap.get?_of_mem_keys _ k hk, GoMap.get?_of_mem_keys _ k (hkeys.1 hk), hget]
  · rw [(GoMap.get?_eq_none_iff _ k).2 hk, (GoMap.get?_eq_none_iff _ k).2 (fun h' => hk (hkeys.2 h'))]

theorem keyPopularity_get?_congr (cfg : Config) (k : String) {data data' : List Record}
    (h : List.Forall₂ List.Perm data data') :
    (keyPopularity cfg data).get? k = (keyPopularity cfg data').get? k := by
  unfold keyPopularity
  split
  · exact countData_get?_congr _ k h
  · exact countData_get?_congr _ k h

theorem GoMap.perm_of_get?_eq {α : Type} {m m' : GoMap α} (nd : m.keys.Nodup)
    (nd' : m'.keys.Nodup) (h : ∀ k, m.get? k = m'.get? k) : m.Perm m' := by
  rw [List.perm_ext_iff_of_nodup (GoMap.nodup_of_nodup_keys nd) (GoMap.nodup_of_nodup_keys nd')]
  rintro ⟨k, v⟩
  rw [← GoMap.get?_eq_some_iff m k v nd, ← GoMap.get?_eq_some_iff m' k v nd', h k]

theorem headD_perm {data data' : List Record} (h : List.Forall₂ List.Perm data data') :
    (data.headD []).Perm (data'.headD []) := by
  cases h with
  | nil => exact List.Perm.refl _
  | cons hr _ => exact hr

theorem discovered_congr (cfg : Config) {data data' : List Record}
    (h : List.Forall₂ List.Perm data data') : discovered cfg data = discovered cfg data' := by
  unfold discovered
  split
  · congr 1
    unfold sortedKeys
    apply sortFunc_congr_perm (fun a b : String × Nat => cmpCountKey a.2 b.2 a.1 b.1)
      (fun a b => cmpCountKey_total _ _ _ _) (fun a b c => cmpCountKey_trans _ _ _ _ _ _)
    · intro a b h1 h2
      have := cmpCountKey_antisymm _ _ _ _ h1 h2
      exact Prod.ext this.2 this.1
    · exact GoMap.perm_of_get?_eq (keyPopularity_nodup cfg data)
        (keyPopularity_nodup cfg data') (fun k => keyPopularity_get?_congr cfg k h)
  · have hfun : (fun a b : String =>
        cmpCountKey (((keyPopularity cfg data).get? a).getD 0)
          (((keyPopularity cfg data).get? b).getD 0) a b)
        = (fun a b => cmpCountKey (((keyPopularity cfg data').get? a).getD 0)
          (((keyPopularity cfg data').get? b).getD 0) a b) := by
      funext a b
      rw [keyPopularity_get?_congr cfg a h, keyPopularity_get?_congr cfg b h]
    simp only []
    rw [hfun]
    apply sortFunc_congr_perm
      (fun a b : String => cmpCountKey (((keyPopularity cfg data').get? a).getD 0)
          (((keyPopularity cfg data').get? b).getD 0) a b)
      (fun a b => cmpCountKey_total _ _ _ _) (fun a b c => cmpCountKey_trans _ _ _ _ _ _)
    · intro a b h1 h2
      exact (cmpCountKey_antisymm _ _ _ _ h1 h2).2
    · unfold additionalKeys
      exact ((headD_perm h).filter _).map _

theorem sortedKeys_of_enumeration (cfg : Config) (data : List Record)
    (enumeration : List (String × Nat)) (he : enumeration.Perm (keyPopularity cfg data)) :
    sortFunc (fun a b => cmpCountKey a.2 b.2 a.1 b.1) enumeration = sortedKeys cfg data := by
  unfold sortedKeys
  apply sortFunc_congr_perm (fun a b : String × Nat => cmpCountKey a.2 b.2 a.1 b.1)
    (fun a b => cmpCountKey_total _ _ _ _) (fun a b c => cmpCountKey_trans _ _ _ _ _ _)
  · intro a b h1 h2
    have := cmpCountKey_antisymm _ _ _ _ h1 h2
    exact Prod.ext this.2 this.1
  · exact he

theorem firstSource_congr {row row' : Record} (h : ∀ k, row.get? k = row'.get? k)
    (srcs : List String) : firstSource row srcs = firstSource row' srcs := by
  induction srcs with
  | nil => rfl
  | cons s rest ih => simp only [firstSource, h s, ih]

theorem values_congr (fmt : Fmt) (cfg : Config) (headers : List String) {row row' : Record}
    (h : ∀ k, row.get? k = row'.get? k) :
    values fmt cfg headers row = values fmt cfg headers row' := by
  unfold values
  apply List.map_congr_left
  intro header _
  unfold selectValue
  simp only [h header, firstSource_congr h]

theorem rows_congr (fmt : Fmt) (cfg : Config) (headers : List String)
    {data data' : List Record} (h : List.Forall₂ List.Perm data data')
    (nd : ∀ row ∈ data, row.keys.Nodup) :
    data.map (values fmt cfg headers) = data'.map (values fmt cfg headers) := by
  induction h with
  | nil => rfl
  | cons hr _ ih =>
    simp only [List.map_cons]
    rw [ih (fun r hr' => nd r (List.mem_cons_of_mem _ hr')),
      values_congr fmt cfg headers
        (fun k => GoMap.get?_perm hr (nd _ (List.mem_cons_self _ _)) k)]

/-! ## What a row reads and what is warned about -/

theorem firstSource_congr_on {row row' : Record} (srcs : List String)
    (h : ∀ s ∈ srcs, row.get? s = row'.get? s) :
    firstSource row srcs = firstSource row' srcs := by
  induction srcs with
  | nil => rfl
  | cons s rest ih =>
    simp only [firstSource, h s (List.mem_cons_self _ _),
      ih (fun s' hs' => h s' (List.mem_cons_of_mem _ hs'))]

theorem selectValue_congr_on (cfg : Config) {row row' : Record} (header : String)
    (hown : row.get? header = row'.get? header)
    (hsrc : ∀ s ∈ sourcesOf cfg.assignments header, row.get? s = row'.get? s) :
    selectValue cfg row header = selectValue cfg row' header := by
  unfold selectValue
  rw [mergeMap_get?]
  by_cases ht : sourcesOf cfg.assignments header = []
  · simp only [ht, if_true, hown]
  · simp only [ht, if_false, hown, firstSource_congr_on _ hsrc]

theorem values_congr_on (fmt : Fmt) (cfg : Config) (headers : List String)
    {row row' : Record}
    (h : ∀ header ∈ headers, row.get? header = row'.get? header ∧
      ∀ s ∈ sourcesOf cfg.assignments header, row.get? s = row'.get? s) :
    values fmt cfg headers row = values fmt cfg headers row' := by
  unfold values
  apply List.map_congr_left
  intro header hh
  rw [selectValue_congr_on cfg header (h header hh).1 (h header hh).2]

/-- A field that is neither a header nor a source of a merge target among the headers does
not reach the row: two records that differ at most under that name give the same row. -/
theorem values_independent (fmt : Fmt) (cfg : Config) (headers : List String)
    (row row' : Record) (name : String) (hname : name ∉ headers)
    (hsrc : ∀ target ∈ headers, name ∉ sourcesOf cfg.assignments target)
    (hsame : ∀ key, key ≠ name → row.get? key = row'.get? key) :
    values fmt cfg headers row = values fmt cfg headers row' := by
  apply values_congr_on
  intro header hh
  refine ⟨hsame header (fun e => hname (e ▸ hh)), ?_⟩
  intro s hs
  exact hsame s (fun e => hsrc header hh (e ▸ hs))

theorem mem_rowWarnings (cfg : Config) (headers : List String) (rowIndex : Nat)
    (row : Record) (i : Nat) (key : String) :
    (i, key) ∈ rowWarnings cfg headers rowIndex row ↔
      cfg.appendAllHeaders = false ∧ i = rowIndex + 1 ∧ key ∈ row.keys ∧ key ∉ headers := by
  unfold rowWarnings
  cases hmode : cfg.appendAllHeaders with
  | true => simp
  | false =>
    have hc : ∀ k : String, (!headers.contains k) = true ↔ k ∉ headers := by
      intro k
      simp
    simp only [Bool.not_false, if_true, List.mem_map, List.mem_filter, Prod.mk.injEq,
      true_and, hc]
    constructor
    · rintro ⟨k, ⟨hk, hnot⟩, hi, rfl⟩
      exact ⟨hi.symm, hk, hnot⟩
    · rintro ⟨hi, hk, hnot⟩
      exact ⟨key, ⟨hk, hnot⟩, hi.symm, rfl⟩

theorem mem_warnings (cfg : Config) (headers : List String) (data : List Record)
    (i : Nat) (key : String) :
    (i, key) ∈ (data.enum.map (fun ir => rowWarnings cfg headers ir.1 ir.2)).flatten ↔
      cfg.appendAllHeaders = false ∧
        ∃ j row, i = j + 1 ∧ data[j]? = some row ∧ key ∈ row.keys ∧ key ∉ headers := by
  simp only [List.mem_flatten, List.mem_map]
  constructor
  · rintro ⟨ws, ⟨⟨j, row⟩, hjr, rfl⟩, hmem⟩
    have := (mem_rowWarnings cfg headers j row i key).1 hmem
    exact ⟨this.1, j, row, this.2.1, List.mk_mem_enum_iff_getElem?.1 hjr, this.2.2⟩
  · rintro ⟨hmode, j, row, hi, hjr, hk, hnot⟩
    exact ⟨_, ⟨(j, row), List.mk_mem_enum_iff_getElem?.2 hjr, rfl⟩,
      (mem_rowWarnings cfg headers j row i key).2 ⟨hmode, hi, hk, hnot⟩⟩

/-! ## Rendering of numbers -/

theorem digitChar_spec : ∀ d, d < 10 →
    (Nat.digitChar d).isDigit = true ∧ (Nat.digitChar d).toNat - '0'.toNat = d := by
  decide

theorem decimalValue_append_singleton (pre : List Char) (c : Char) :
    decimalValue (pre ++ [c]) = 10 * decimalValue pre + (c.toNat - '0'.toNat) := by
  simp [decimalValue, List.foldl_append]

theorem toDigitsCore_spec (fuel n : Nat) (ds : List Char) (h : n < fuel) :
    ∃ pre : List Char, Nat.toDigitsCore 10 fuel n ds = pre ++ ds ∧ pre ≠ [] ∧
      (∀ c ∈ pre, c.isDigit = true) ∧ decimalValue pre = n := by
  induction fuel generalizing n ds with
  | zero => omega
  | succ fuel ih =>
    have hd := digitChar_spec (n % 10) (Nat.mod_lt _ (by decide))
    unfold Nat.toDigitsCore
    by_cases h0 : n / 10 = 0
    · simp only [h0, if_true]
      refine ⟨[Nat.digitChar (n % 10)], rfl, by simp, ?_, ?_⟩
      · intro c hc
        rw [List.mem_singleton.1 hc]
        exact hd.1
      · have : decimalValue [Nat.digitChar (n % 10)]
            = (Nat.digitChar (n % 10)).toNat - '0'.toNat := by
          simp [decimalValue]
        rw [this, hd.2]
        omega
    · simp only [h0, if_false]
      obtain ⟨pre, hpre, _, hdig, hval⟩ :=
        ih (n / 10) (Nat.digitChar (n % 10) :: ds) (by omega)
      refine ⟨pre ++ [Nat.digitChar (n % 10)], ?_, by simp, ?_, ?_⟩
      · rw [hpre]
        simp
      · intro c hc
        rcases List.mem_append.1 hc with hc | hc
        · exact hdig c hc
        · rw [List.mem_singleton.1 hc]
          exact hd.1
      · rw [decimalValue_append_singleton, hval, hd.2]
        omega

theorem natRepr_spec (n : Nat) :
    (Nat.repr n).data ≠ [] ∧ (∀ c ∈ (Nat.repr n).data, c.isDigit = true) ∧
      decimalValue (Nat.repr n).data = n := by
  obtain ⟨pre, hpre, hne, hdig, hval⟩ := toDigitsCore_spec (n + 1) n [] (Nat.lt_succ_self n)
  have : (Nat.repr n).data = pre := by
    simp [Nat.repr, Nat.toDigits, hpre, List.asString]
  rw [this]
  exact ⟨hne, hdig, hval⟩

theorem toString_isDecimalOf (i : Int) : IsDecimalOf (toString i) i := by
  cases i with
  | ofNat m =>
    obtain ⟨hne, hdig, hval⟩ := natRepr_spec m
    refine ⟨(Nat.repr m).data, hne, hdig, by simpa using hval, ?_⟩
    have hnn : ¬ (Int.ofNat m < 0) := by simp
    rw [if_neg hnn]
    rfl
  | negSucc m =>
    obtain ⟨hne, hdig, hval⟩ := natRepr_spec (m + 1)
    refine ⟨(Nat.repr (m + 1)).data, hne, hdig, by simpa using hval, ?_⟩
    have hneg : Int.negSucc m < 0 := Int.negSucc_lt_zero m
    rw [if_pos hneg]
    rfl

theorem not_mem_of_isDecimalOf {s : String} {i : Int} (h : IsDecimalOf s i) (c : Char)
    (hc : c.isDigit = false) (hm : c ≠ '-') : c ∉ s.data := by
  obtain ⟨digits, _, hdig, _, hs⟩ := h
  rw [hs]
  intro hmem
  rcases List.mem_append.1 hmem with h1 | h1
  · split at h1
    · exact hm (List.mem_singleton.1 h1)
    · cases h1
  · rw [hdig c h1] at hc
    cases hc

theorem selectValue_plain (cfg : Config) (row : Record) (header : String)
    (ht : sourcesOf cfg.assignments header = []) :
    selectValue cfg row header = (row.get? header).getD .null := by
  unfold selectValue
  rw [mergeMap_get?, if_pos ht]

/-! ## Parsing of the merge flag -/

theorem parseAssignment_text (p : Piece) (wf : p.WellFormed) :
    parseAssignment ⟨p.text⟩ = p.rule := by
  cases p with
  | assignment target source =>
    obtain ⟨_, h1, _, h2⟩ := wf
    unfold parseAssignment Go.split
    simp only [Piece.text, Piece.rule]
    rw [Go.splitChars_append_sep '=' target source h1, Go.splitChars_of_not_mem '=' source h2]
    rfl
  | other text =>
    obtain ⟨_, h1⟩ := wf
    unfold parseAssignment Go.split
    simp only [Piece.text, Piece.rule]
    have hlen : (Go.splitChars '=' text).length ≠ 2 := by
      rw [Go.length_splitChars]
      omega
    cases hs : Go.splitChars '=' text with
    | nil => rfl
    | cons a rest =>
      cases rest with
      | nil => rfl
      | cons b rest' =>
        cases rest' with
        | nil =>
          rw [hs] at hlen
          exact absurd rfl hlen
        | cons c rest'' => rfl

theorem flagText_eq_empty (pieces : List Piece) (wf : ∀ p ∈ pieces, p.WellFormed)
    (h : flagText pieces = "") : pieces.filterMap Piece.rule = [] := by
  have hd : List.intercalate [','] (pieces.map Piece.text) = [] := by
    have := congrArg String.data h
    simpa [flagText] using this
  cases pieces with
  | nil => rfl
  | cons p rest =>
    cases rest with
    | nil =>
      simp only [List.map_cons, List.map_nil, Go.intercalate_singleton] at hd
      cases p with
      | assignment target source => simp [Piece.text] at hd
      | other text => simp [Piece.rule]
    | cons q rest' =>
      simp only [List.map_cons, Go.intercalate_cons_cons] at hd
      simp at hd

theorem parseMergeHeaders_flagText (pieces : List Piece) (wf : ∀ p ∈ pieces, p.WellFormed) :
    parseMergeHeaders (flagText pieces) = pieces.filterMap Piece.rule := by
  unfold parseMergeHeaders
  by_cases h : flagText pieces = ""
  · simp only [h, ne_eq, not_true_eq_false, if_false]
    exact (flagText_eq_empty pieces wf h).symm
  · rw [if_pos h]
    have hne : pieces.map Piece.text ≠ [] := by
      intro e
      apply h
      simp [flagText, e, List.intercalate]
    have hcomma : ∀ seg ∈ pieces.map Piece.text, ',' ∉ seg := by
      intro seg hseg
      obtain ⟨p, hp, rfl⟩ := List.mem_map.1 hseg
      have := wf p hp
      cases p with
      | assignment target source =>
        obtain ⟨h1, _, h2, _⟩ := this
        simp only [Piece.text, List.mem_append, List.mem_cons, not_or]
        exact ⟨h1, by decide, h2⟩
      | other text => exact this.1
    unfold Go.split
    simp only [flagText]
    rw [Go.splitChars_intercalate ',' _ hne hcomma, List.map_map, List.filterMap_map]
    apply List.filterMap_congr
    intro p hp
    exact parseAssignment_text p (wf p hp)

theorem ofText_text (text : List Char) : (Piece.ofText text).text = text := by
  unfold Piece.ofText
  have hj := Go.intercalate_splitChars '=' text
  cases hs : Go.splitChars '=' text with
  | nil => rfl
  | cons a rest =>
    cases rest with
    | nil => rfl
    | cons b rest' =>
      cases rest' with
      | nil =>
        rw [hs, Go.intercalate_cons_cons, Go.intercalate_singleton] at hj
        exact hj
      | cons c rest'' => rfl

theorem ofText_wellFormed (text : List Char) (h : ',' ∉ text) :
    (Piece.ofText text).WellFormed := by
  have ht := ofText_text text
  have hno := Go.not_mem_of_mem_splitChars '=' text
  have hlen := Go.length_splitChars '=' text
  unfold Piece.ofText at ht ⊢
  cases hs : Go.splitChars '=' text with
  | nil =>
    rw [hs] at hlen
    simp at hlen
  | cons a rest =>
    cases rest with
    | nil =>
      rw [hs] at hlen
      refine ⟨h, ?_⟩
      simp at hlen
      omega
    | cons b rest' =>
      cases rest' with
      | nil =>
        rw [hs] at ht hno
        simp only [Piece.text] at ht
        have ha : ',' ∉ a := fun e => h (ht ▸ List.mem_append_left _ e)
        have hb : ',' ∉ b := fun e =>
          h (ht ▸ List.mem_append_right _ (List.mem_cons_of_mem _ e))
        exact ⟨ha, hno a (by simp), hb, hno b (by simp)⟩
      | cons c rest'' =>
        rw [hs] at hlen
        refine ⟨h, ?_⟩
        simp at hlen
        omega

theorem exists_pieces (s : String) :
    ∃ pieces : List Piece, (∀ p ∈ pieces, p.WellFormed) ∧ flagText pieces = s := by
  refine ⟨(Go.splitChars ',' s.data).map Piece.ofText, ?_, ?_⟩
  · intro p hp
    obtain ⟨seg, hseg, rfl⟩ := List.mem_map.1 hp
    exact ofText_wellFormed seg (Go.not_mem_of_mem_splitChars ',' s.data seg hseg)
  · unfold flagText
    rw [List.map_map]
    have : (Piece.text ∘ Piece.ofText) = id := by
      funext text
      exact ofText_text text
    rw [this, List.map_id, Go.intercalate_splitChars]

theorem int64_of_toRat (fmt : Fmt) (x : Go.Float64) (n : Int) (h : x.toRat = (n : ℚ))
    (hlo : -(2 : Int) ^ 63 ≤ n) (hhi : n < (2 : Int) ^ 63) : int64 fmt x = n := by
  unfold int64
  rw [Go.Float64.truncate_of_toRat x n h, if_pos ⟨hlo, hhi⟩]

theorem coerce_integer (fmt : Fmt) (x : Go.Float64) (n : Int) (h : x.toRat = (n : ℚ))
    (hlo : -(2 : Int) ^ 63 ≤ n) (hhi : n < (2 : Int) ^ 63) :
    coerce fmt (.number x) = toString n := by
  show (if x.eqInt (Go.float64OfInt (int64 fmt x)) then toString (int64 fmt x)
    else Go.formatG x) = toString n
  rw [int64_of_toRat fmt x n h hlo hhi, Go.float64OfInt_of_toRat x n h,
    if_pos ((Go.Float64.eqInt_iff x n).2 h)]

theorem coerce_fraction (fmt : Fmt) (x : Go.Float64) (h : x.toRat.den ≠ 1) :
    coerce fmt (.number x) = Go.formatG x := by
  show (if x.eqInt (Go.float64OfInt (int64 fmt x)) then toString (int64 fmt x)
    else Go.formatG x) = Go.formatG x
  have hne : ¬ x.eqInt (Go.float64OfInt (int64 fmt x)) = true := by
    intro he
    apply h
    rw [(Go.Float64.eqInt_iff x _).1 he]
    exact Rat.den_intCast _
  rw [if_neg hne]

end Json2csv

namespace Csv2json

open Json2csv

theorem main_eq_map (header : List String) (rows : List (List String)) :
    main header rows = rows.map (rowMap header) := by
  unfold main
  have : ∀ acc : List (GoMap String),
      rows.foldl (fun result row => result ++ [rowMap header row]) acc
        = acc ++ rows.map (rowMap header) := by
    induction rows with
    | nil => simp
    | cons r rest ih =>
      intro acc
      simp [ih]
  rw [this]
  simp

/-- The loop of lines 38-42 assigns the pairs of header name and field, left to right. -/
theorem rowMap_fold (header : List String) (row : List String) (n : Nat) (m : GoMap String) :
    (row.enumFrom n).foldl
        (fun m iv =>
          if h : iv.1 < header.length then GoMap.set m (header.get ⟨iv.1, h⟩) iv.2 else m)
        m
      = ((header.drop n).zip row).foldl (fun m hv => GoMap.set m hv.1 hv.2) m := by
  induction row generalizing n m with
  | nil => simp
  | cons v rest ih =>
    simp only [List.enumFrom_cons, List.foldl_cons]
    rw [ih]
    by_cases h : n < header.length
    · rw [dif_pos h]
      have hd : header.drop n = header.get ⟨n, h⟩ :: header.drop (n + 1) :=
        List.drop_eq_getElem_cons h
      rw [hd]
      simp only [List.zip_cons_cons, List.foldl_cons]
    · rw [dif_neg h]
      have h1 : header.drop n = [] := List.drop_eq_nil_of_le (by omega)
      have h2 : header.drop (n + 1) = [] := List.drop_eq_nil_of_le (by omega)
      rw [h1, h2]
      simp

theorem rowMap_eq (header : List String) (row : List String) :
    rowMap header row = (header.zip row).foldl (fun m hv => GoMap.set m hv.1 hv.2) [] := by
  unfold rowMap List.enum
  rw [rowMap_fold]
  simp

theorem foldl_set_get?_of_not_mem (pairs : List (String × String)) (m : GoMap String)
    (k : String) (h : ∀ p ∈ pairs, p.1 ≠ k) :
    (pairs.foldl (fun m hv => GoMap.set m hv.1 hv.2) m).get? k = m.get? k := by
  induction pairs generalizing m with
  | nil => rfl
  | cons p rest ih =>
    simp only [List.foldl_cons]
    rw [ih _ (fun q hq => h q (List.mem_cons_of_mem _ hq)), GoMap.get?_set,
      if_neg (h p (List.mem_cons_self _ _))]

theorem foldl_set_get?_last (pairs : List (String × String)) (m : GoMap String) (i : Nat)
    (p : String × String) (hi : pairs[i]? = some p)
    (hlast : ∀ (j : Nat) (q : String × String), i < j → pairs[j]? = some q → q.1 ≠ p.1) :
    (pairs.foldl (fun m hv => GoMap.set m hv.1 hv.2) m).get? p.1 = some p.2 := by
  induction pairs generalizing m i with
  | nil => simp at hi
  | cons p0 rest ih =>
    simp only [List.foldl_cons]
    cases i with
    | zero =>
      simp only [List.getElem?_cons_zero, Option.some.injEq] at hi
      subst hi
      rw [foldl_set_get?_of_not_mem rest _ p0.1, GoMap.get?_set, if_pos rfl]
      intro q hq
      obtain ⟨j, hj, hjq⟩ := List.getElem_of_mem hq
      exact hlast (j + 1) q (Nat.succ_pos j) (by simp [List.getElem?_eq_getElem hj, hjq])
    | succ i =>
      apply ih _ i (by simpa using hi)
      intro j q hij hq
      exact hlast (j + 1) q (Nat.succ_lt_succ hij) (by simpa using hq)

theorem foldl_set_keys (pairs : List (String × String)) (m : GoMap String) (k : String) :
    k ∈ (pairs.foldl (fun m hv => GoMap.set m hv.1 hv.2) m).keys ↔
      k ∈ m.keys ∨ ∃ p ∈ pairs, p.1 = k := by
  induction pairs generalizing m with
  | nil => simp
  | cons p rest ih =>
    simp only [List.foldl_cons]
    rw [ih, GoMap.mem_keys_set]
    constructor
    · rintro ((h | h) | ⟨q, hq, hk⟩)
      · exact Or.inr ⟨p, List.mem_cons_self _ _, h.symm⟩
      · exact Or.inl h
      · exact Or.inr ⟨q, List.mem_cons_of_mem _ hq, hk⟩
    · rintro (h | ⟨q, hq, hk⟩)
      · exact Or.inl (Or.inr h)
      · rcases List.mem_cons.1 hq with e | e
        · subst e
          exact Or.inl (Or.inl hk.symm)
        · exact Or.inr ⟨q, e, hk⟩

theorem foldl_set_nodup (pairs : List (String × String)) (m : GoMap String)
    (nd : m.keys.Nodup) : (pairs.foldl (fun m hv => GoMap.set m hv.1 hv.2) m).keys.Nodup := by
  induction pairs generalizing m with
  | nil => exact nd
  | cons p rest ih =>
    simp only [List.foldl_cons]
    exact ih _ (GoMap.nodup_keys_set m p.1 p.2 nd)

theorem rowMap_nodup (header : List String) (row : List String) :
    (rowMap header row).keys.Nodup := by
  rw [rowMap_eq]
  exact foldl_set_nodup _ [] (by simp [GoMap.keys])

theorem mem_keys_rowMap (header : List String) (row : List String) (k : String) :
    k ∈ (rowMap header row).keys ↔ ∃ p ∈ header.zip row, p.1 = k := by
  rw [rowMap_eq, foldl_set_keys]
  simp [GoMap.keys]

theorem rowMap_get?_last (header row : List String) (i : Nat) (name value : String)
    (hname : header[i]? = some name) (hvalue : row[i]? = some value)
    (hlast : ∀ j : Nat, i < j → header[j]? ≠ some name) :
    (rowMap header row).get? name = some value := by
  rw [rowMap_eq]
  apply foldl_set_get?_last (header.zip row) [] i (name, value)
  · exact List.getElem?_zip_eq_some.2 ⟨hname, hvalue⟩
  · intro j q hij hq hq1
    have := (List.getElem?_zip_eq_some.1 hq).1
    rw [hq1] at this
    exact hlast j hij this

theorem mem_keys_rowMap_of_mem (header row : List String) (name : String)
    (h : name ∈ (rowMap header row).keys) : name ∈ header := by
  obtain ⟨p, hp, rfl⟩ := (mem_keys_rowMap header row name).1 h
  exact (List.of_mem_zip hp).1

theorem mem_keys_rowMap_iff (header row : List String) (name : String)
    (hwidth : row.length = header.length) :
    name ∈ (rowMap header row).keys ↔ name ∈ header := by
  constructor
  · exact mem_keys_rowMap_of_mem header row name
  · intro h
    have hfst : (header.zip row).map Prod.fst = header :=
      List.map_fst_zip header row (by omega)
    rw [← hfst] at h
    obtain ⟨p, hp, rfl⟩ := List.mem_map.1 h
    exact (mem_keys_rowMap header row p.1).2 ⟨p, hp, rfl⟩

theorem keys_toRecord (m : GoMap String) : (toRecord m).keys = m.keys := by
  simp [toRecord, GoMap.keys, List.map_map, Function.comp_def]

theorem discoverable_defaultConfig (name : String) :
    discoverable defaultConfig name = true := by
  rw [discoverable_iff]
  exact ⟨List.not_mem_nil _, List.not_mem_nil _, by simp [IsMergeSourceKey, defaultConfig]⟩

theorem batch_eq (header : List String) (rows : List (List String)) :
    (main header rows).map toRecord = rows.map (fun row => toRecord (rowMap header row)) := by
  rw [main_eq_map, List.map_map]
  rfl

end Csv2json

namespace Sqltable2csv

theorem onlySeparatorChars_iff (cs : List Char) :
    onlySeparatorChars cs = true ↔ ∀ c ∈ cs, c = '-' ∨ c = '+' ∨ c = '=' ∨ c = ' ' := by
  induction cs with
  | nil => simp [onlySeparatorChars]
  | cons c rest ih =>
    unfold onlySeparatorChars
    by_cases h : c ≠ '-' ∧ c ≠ '+' ∧ c ≠ '=' ∧ c ≠ ' '
    · rw [if_pos h]
      simp only [Bool.false_eq_true, false_iff]
      intro hall
      have := hall c (List.mem_cons_self _ _)
      tauto
    · rw [if_neg h, ih]
      have hc : c = '-' ∨ c = '+' ∨ c = '=' ∨ c = ' ' := by tauto
      constructor
      · intro hall d hd
        rcases List.mem_cons.1 hd with e | e
        · rw [e]; exact hc
        · exact hall d e
      · intro hall d hd
        exact hall d (List.mem_cons_of_mem _ hd)

theorem isSeparatorLine_iff (line : String) :
    isSeparatorLine line = true ↔
      (∀ c ∈ line.data, c = '-' ∨ c = '+' ∨ c = '=' ∨ c = ' ') ∧
        ∃ c ∈ line.data, c ≠ ' ' := by
  unfold isSeparatorLine
  by_cases h : onlySeparatorChars line.data = true
  · rw [if_pos h]
    have hall := (onlySeparatorChars_iff line.data).1 h
    simp only [gt_iff_lt, decide_eq_true_eq, Go.len_pos_iff, Go.trimSpace, ne_eq,
      Go.trimSpaceChars_eq_nil_iff, not_forall]
    constructor
    · rintro ⟨c, hc, hns⟩
      refine ⟨hall, c, hc, ?_⟩
      rintro rfl
      exact hns (by decide)
    · rintro ⟨_, c, hc, hne⟩
      refine ⟨c, hc, ?_⟩
      rcases hall c hc with e | e | e | e
      · rw [e]; decide
      · rw [e]; decide
      · rw [e]; decide
      · exact absurd e hne
  · rw [if_neg h]
    simp only [Bool.false_eq_true, false_iff, not_and]
    intro hall
    exact absurd ((onlySeparatorChars_iff line.data).2 hall) h

theorem foldl_append_singleton {α β : Type} (f : α → β) (l : List α) (acc : List β) :
    l.foldl (fun result x => result ++ [f x]) acc = acc ++ l.map f := by
  induction l generalizing acc with
  | nil => simp
  | cons x rest ih => simp [ih]

theorem splitAndTrim_eq (line : String) :
    splitAndTrim line = (Go.split line '|').map Go.trimSpace := by
  unfold splitAndTrim
  rw [foldl_append_singleton]
  simp

theorem main_fold (lines : List String) (acc : List (List String)) :
    lines.foldl
      (fun written line =>
        if isSeparatorLine line then written else written ++ [splitAndTrim line]) acc
      = acc ++ (lines.filter (fun line => !isSeparatorLine line)).map splitAndTrim := by
  induction lines generalizing acc with
  | nil => simp
  | cons line rest ih =>
    simp only [List.foldl_cons]
    rw [ih]
    cases h : isSeparatorLine line <;> simp [List.filter_cons, h]

theorem main_eq_filter (lines : List String) :
    main lines = (lines.filter (fun line => !isSeparatorLine line)).map splitAndTrim := by
  unfold main
  rw [main_fold]
  simp

theorem splitAndTrim_getElem? (line : String) (i : Nat) (seg : List Char)
    (h : (Go.splitChars '|' line.data)[i]? = some seg) :
    (splitAndTrim line)[i]? = some (Go.trimSpace ⟨seg⟩) := by
  rw [splitAndTrim_eq]
  unfold Go.split
  simp [List.getElem?_map, h]

theorem mem_splitAndTrim (line : String) (field : String) (h : field ∈ splitAndTrim line) :
    ∃ seg ∈ Go.splitChars '|' line.data, field = Go.trimSpace ⟨seg⟩ := by
  rw [splitAndTrim_eq] at h
  unfold Go.split at h
  simp only [List.map_map, List.mem_map, Function.comp] at h
  obtain ⟨seg, hseg, rfl⟩ := h
  exact ⟨seg, hseg, rfl⟩

theorem splitAndTrim_field (seg : List Char) (h : '|' ∉ seg) :
    splitAndTrim (Go.trimSpace ⟨seg⟩) = [Go.trimSpace ⟨seg⟩] := by
  have hno : '|' ∉ Go.trimSpaceChars seg := fun e => h ((Go.trimSpaceChars_sublist seg).subset e)
  rw [splitAndTrim_eq]
  unfold Go.split
  simp only [Go.trimSpace]
  rw [Go.splitChars_of_not_mem '|' _ hno]
  simp [Go.trimSpace, Go.trimSpaceChars_idem]

end Sqltable2csv

/-! # Claims -/

namespace Json2csv

/-- C1 (exclusion dominance): for every non-empty batch and every configuration the run
succeeds and no name of `excludeHeaders` is in the final Header List, whether or not the
name is also a fixed header or a merge target. -/
theorem exclusion_dominance (fmt : Fmt) (cfg : Config) (data : List Record)
    (hne : data ≠ []) :
    ∃ out, main fmt cfg data = .ok out ∧ ∀ name ∈ cfg.excludeHeaders, name ∉ out.header := by
  refine ⟨_, main_eq_ok fmt cfg data hne, ?_⟩
  intro name hex hmem
  exact ((mem_filteredHeaders cfg _ name).1 hmem).2 hex

/-- Witness of C1: the excluded name `x` is a fixed header, a merge target and a key of
the record. -/
theorem exclusion_dominance_witness :
    ∃ out, main plainFmt
        { headers := ["x", "y"], appendAllHeaders := true, excludeHeaders := ["x"],
          assignments := [("x", "z")] }
        [[("x", .string "1"), ("z", .string "2")]] = .ok out ∧
      ∀ name ∈ ["x"], name ∉ out.header :=
  exclusion_dominance plainFmt
    { headers := ["x", "y"], appendAllHeaders := true, excludeHeaders := ["x"],
      assignments := [("x", "z")] }
    [[("x", .string "1"), ("z", .string "2")]] (List.cons_ne_nil _ _)

/-- C2 (determinism): for every configuration and every batch of records with distinct
keys, enumerating the keys of each record in another order changes neither the outcome
(error or success) nor the Header List nor any output row; and the slice `sortedKeys` is
the same for every order in which line 98 enumerates the map `keyPopularity`. -/
theorem determinism (fmt : Fmt) (cfg : Config) (data data' : List Record)
    (hperm : List.Forall₂ List.Perm data data') (hnd : ∀ row ∈ data, row.keys.Nodup) :
    (main fmt cfg data).map (fun out => (out.header, out.rows))
        = (main fmt cfg data').map (fun out => (out.header, out.rows)) ∧
    ∀ enumeration : List (String × Nat), enumeration.Perm (keyPopularity cfg data) →
      sortFunc (fun a b => cmpCountKey a.2 b.2 a.1 b.1) enumeration = sortedKeys cfg data := by
  refine ⟨?_, fun enumeration he => sortedKeys_of_enumeration cfg data enumeration he⟩
  by_cases hne : data = []
  · subst hne
    cases hperm
    rfl
  · have hne' : data' ≠ [] := by
      intro e
      subst e
      cases hperm
      exact hne rfl
    have hh : finalHeaders cfg data = finalHeaders cfg data' := by
      unfold finalHeaders
      rw [discovered_congr cfg hperm]
    rw [main_eq_ok fmt cfg data hne, main_eq_ok fmt cfg data' hne']
    show Except.ok _ = Except.ok _
    simp only [← hh, rows_congr fmt cfg (finalHeaders cfg data) hperm hnd]

/-- Witness of C2: the scenario batch in append-all mode, with the keys of both records
enumerated in the opposite order. -/
theorem determinism_witness :
    (main plainFmt appendAllConfig scenarioBatch).map (fun out => (out.header, out.rows))
      = (main plainFmt appendAllConfig
          [[("b", .string "2"), ("a", .string "1")],
           [("c", .string "4"), ("a", .string "3")]]).map
        (fun out => (out.header, out.rows)) :=
  (determinism plainFmt appendAllConfig scenarioBatch
    [[("b", .string "2"), ("a", .string "1")], [("c", .string "4"), ("a", .string "3")]]
    (List.Forall₂.cons (List.Perm.swap _ _ _)
      (List.Forall₂.cons (List.Perm.swap _ _ _) List.Forall₂.nil))
    (by
      intro row hrow
      simp only [scenarioBatch, List.mem_cons, List.mem_singleton, List.not_mem_nil,
        or_false] at hrow
      rcases hrow with rfl | rfl <;> decide)).1

/-- C3, as the claim states it, fails: with `headers=a,a` in append-all mode the name `a`,
which holds the value `1` in the record, is twice in the final Header List. -/
theorem append_all_exactly_once_counterexample :
    ∃ out, main plainFmt
        { headers := ["a", "a"], appendAllHeaders := true, excludeHeaders := [],
          assignments := [] }
        [[("a", .string "1")]] = .ok out ∧
      (Value.string "1").nonEmpty = true ∧
      ¬ IsMergeSourceKey [] "a" ∧
      out.header = ["a", "a"] ∧
      ¬ out.header.count "a" = 1 :=
  ⟨_, rfl, by decide, by simp [IsMergeSourceKey], rfl, by decide⟩

/-- C3, amended (append-all mode): every field name that occurs in some record with a value
that is neither null nor the empty string, and that is neither excluded nor a merge source
key, is in the final Header List: exactly once when it is not a fixed header, and otherwise
as many times as `fixedHeaders` lists it. -/
theorem append_all_completeness (fmt : Fmt) (cfg : Config) (data : List Record)
    (name : String) (row : Record) (v : Value)
    (hne : data ≠ []) (hmode : cfg.appendAllHeaders = true)
    (hrow : row ∈ data) (hv : (name, v) ∈ row) (hval : v.nonEmpty = true)
    (hex : name ∉ cfg.excludeHeaders) (hsrc : ¬ IsMergeSourceKey cfg.assignments name) :
    ∃ out, main fmt cfg data = .ok out ∧
      name ∈ out.header ∧
      out.header.count name = max 1 (cfg.headers.count name) ∧
      (cfg.headers.count name ≤ 1 → out.header.count name = 1) := by
  have hcount : (finalHeaders cfg data).count name = max 1 (cfg.headers.count name) := by
    rw [finalHeaders_eq, List.count_append, count_filteredHeaders cfg _ name hex]
    by_cases hfix : name ∈ cfg.headers
    · have hnd : name ∉ discovered cfg data := fun h =>
        ((discoverable_iff cfg name).1
          (discoverable_of_mem_discovered cfg data name h)).1 hfix
      have hpos : 0 < cfg.headers.count name := List.count_pos_iff.2 hfix
      rw [List.count_eq_zero_of_not_mem hnd]
      omega
    · have hd : name ∈ discovered cfg data :=
        (mem_discovered_append cfg data name hmode).2
          ⟨(discoverable_iff cfg name).2 ⟨hfix, hex, hsrc⟩, row, hrow, v, hv, hval⟩
      rw [List.count_eq_zero_of_not_mem hfix,
        List.count_eq_one_of_mem (discovered_nodup cfg data (fun h => by simp [hmode] at h)) hd]
      rfl
  refine ⟨_, main_eq_ok fmt cfg data hne, ?_, hcount, ?_⟩
  · show name ∈ finalHeaders cfg data
    apply List.count_pos_iff.1
    rw [hcount]
    omega
  · intro h
    show (finalHeaders cfg data).count name = 1
    rw [hcount]
    omega

/-- Witness of C3: the scenario batch in append-all mode and the name `c`. -/
theorem append_all_completeness_witness :
    ∃ out, main plainFmt appendAllConfig scenarioBatch = .ok out ∧
      "c" ∈ out.header ∧
      out.header.count "c" = max 1 (appendAllConfig.headers.count "c") ∧
      (appendAllConfig.headers.count "c" ≤ 1 → out.header.count "c" = 1) :=
  append_all_completeness plainFmt appendAllConfig scenarioBatch "c"
    [("a", .string "3"), ("c", .string "4")] (.string "4")
    (List.cons_ne_nil _ _) rfl (by simp [scenarioBatch]) (by simp) (by decide)
    (List.not_mem_nil _) (by simp [IsMergeSourceKey, appendAllConfig])

/-- C4 (merge precedence): for every record, every header list and every merge target `T`
at a position of it, the cell of that position is the coerced value of `record[T]` when it
is present and neither null nor empty; otherwise the coerced value of the first configured
source with such a value; otherwise the empty string.  With the rule `err=error` the record
`{"error":"boom"}` gives the cell `boom` for `err`. -/
theorem merge_precedence (fmt : Fmt) (cfg : Config) (row : Record) (headers : List String)
    (i : Nat) (target : String)
    (ht : sourcesOf cfg.assignments target ≠ []) (hi : headers[i]? = some target) :
    (∀ v, row.get? target = some v → v.nonEmpty = true →
      (values fmt cfg headers row)[i]? = some (coerce fmt v)) ∧
    (¬ HasValue row target →
      ∀ (j : Nat) (s : String) (v : Value),
        (sourcesOf cfg.assignments target)[j]? = some s →
        row.get? s = some v → v.nonEmpty = true →
        (∀ (j' : Nat), j' < j → ∀ s', (sourcesOf cfg.assignments target)[j']? = some s' →
          ¬ HasValue row s') →
        (values fmt cfg headers row)[i]? = some (coerce fmt v)) ∧
    (¬ HasValue row target →
      (∀ s ∈ sourcesOf cfg.assignments target, ¬ HasValue row s) →
      (values fmt cfg headers row)[i]? = some "") ∧
    values plainFmt
        { headers := [], appendAllHeaders := false, excludeHeaders := [],
          assignments := [("err", "error")] }
        ["err"] [("error", .string "boom")] = ["boom"] := by
  refine ⟨?_, ?_, ?_, by decide⟩
  · intro v hv hne
    rw [values_getElem? fmt cfg headers row i target hi,
      selectValue_target_own cfg row target v hv hne]
  · intro hown j s v hs hv hne hbefore
    rw [values_getElem? fmt cfg headers row i target hi,
      selectValue_target_sources cfg row target ht hown,
      firstSource_of_first row _ j s v hs hv hne hbefore]
  · intro hown hnone
    rw [values_getElem? fmt cfg headers row i target hi,
      selectValue_target_sources cfg row target ht hown,
      firstSource_of_none row _ hnone]
    rfl

/-- Witness of C4: the rules `t=s1` and `t=s2`, a record with an empty `t`, a null `s1` and
`s2 = x`. -/
theorem merge_precedence_witness :
    values plainFmt
        { headers := [], appendAllHeaders := false, excludeHeaders := [],
          assignments := [("t", "s1"), ("t", "s2")] }
        ["t"] [("t", .string ""), ("s1", .null), ("s2", .string "x")] = ["x"] ∧
    (values plainFmt
        { headers := [], appendAllHeaders := false, excludeHeaders := [],
          assignments := [("t", "s1"), ("t", "s2")] }
        ["t"] [("t", .string ""), ("s1", .null), ("s2", .string "x")])[0]?
      = some (coerce plainFmt (.string "x")) :=
  ⟨by decide,
   (merge_precedence plainFmt
      { headers := [], appendAllHeaders := false, excludeHeaders := [],
        assignments := [("t", "s1"), ("t", "s2")] }
      [("t", .string ""), ("s1", .null), ("s2", .string "x")] ["t"] 0 "t"
      (by decide) rfl).2.1
      (by decide) 1 "s2" (.string "x") rfl rfl rfl
      (by
        intro j' hj' s' hs'
        have h0 : j' = 0 := by omega
        subst h0
        cases hs'
        decide)⟩

/-- C5 (row-width invariant): for every non-empty batch and configuration the run succeeds
and every data row has exactly as many cells as the final Header List has names. -/
theorem row_width (fmt : Fmt) (cfg : Config) (data : List Record) (hne : data ≠ []) :
    ∃ out, main fmt cfg data = .ok out ∧ ∀ row ∈ out.rows, row.length = out.header.length := by
  refine ⟨_, main_eq_ok fmt cfg data hne, ?_⟩
  intro row hrow
  obtain ⟨r, _, rfl⟩ := List.mem_map.1 hrow
  simp [values]

/-- Witness of C5: a record holding a null, a boolean, a number, a string and a nested
value, with a merge target among the headers. -/
theorem row_width_witness :
    ∃ out, main plainFmt
        { headers := ["t"], appendAllHeaders := true, excludeHeaders := [],
          assignments := [("t", "s")] }
        [[("n", .null), ("b", .bool true), ("q", .number three), ("s", .string "v"),
          ("o", .object [("k", .array [])])]] = .ok out ∧
      ∀ row ∈ out.rows, row.length = out.header.length :=
  row_width plainFmt
    { headers := ["t"], appendAllHeaders := true, excludeHeaders := [],
      assignments := [("t", "s")] }
    [[("n", .null), ("b", .bool true), ("q", .number three), ("s", .string "v"),
      ("o", .object [("k", .array [])])]] (List.cons_ne_nil _ _)

/-- C6 (default mode): for every non-empty batch and configuration with
`appendAllHeaders = false`, a name that is not a fixed header is in the final Header List
if and only if it is a key of the first record (whatever its value there), is not excluded
and is not a merge source key; on the scenario batch the headers are `[a, b]` and the
second row is `[3, empty]`. -/
theorem default_mode_headers (fmt : Fmt) (cfg : Config) (data : List Record) (name : String)
    (hne : data ≠ []) (hmode : cfg.appendAllHeaders = false) (hfix : name ∉ cfg.headers) :
    (∃ out, main fmt cfg data = .ok out ∧
      (name ∈ out.header ↔
        name ∈ (data.head hne).keys ∧ name ∉ cfg.excludeHeaders ∧
          ¬ IsMergeSourceKey cfg.assignments name)) ∧
    main plainFmt defaultConfig scenarioBatch
      = .ok { header := ["a", "b"], rows := [["1", "2"], ["3", ""]],
              warnings := [(2, "c")] } := by
  refine ⟨⟨_, main_eq_ok fmt cfg data hne, ?_⟩, by rfl⟩
  show name ∈ finalHeaders cfg data ↔ _
  rw [finalHeaders_eq, List.mem_append, mem_filteredHeaders,
    mem_discovered_default cfg data name hmode, discoverable_iff, headD_eq_head data hne]
  constructor
  · rintro (⟨h, _⟩ | ⟨hk, _, hex, hsrc⟩)
    · exact absurd h hfix
    · exact ⟨hk, hex, hsrc⟩
  · rintro ⟨hk, hex, hsrc⟩
    exact Or.inr ⟨hk, hfix, hex, hsrc⟩

/-- Witness of C6: the key `c` of the second record only is not a header. -/
theorem default_mode_headers_witness :
    (∃ out, main plainFmt defaultConfig scenarioBatch = .ok out ∧
      ("c" ∈ out.header ↔
        "c" ∈ (scenarioBatch.head (List.cons_ne_nil _ _)).keys ∧
          "c" ∉ defaultConfig.excludeHeaders ∧
          ¬ IsMergeSourceKey defaultConfig.assignments "c")) ∧
    main plainFmt defaultConfig scenarioBatch
      = .ok { header := ["a", "b"], rows := [["1", "2"], ["3", ""]],
              warnings := [(2, "c")] } :=
  default_mode_headers plainFmt defaultConfig scenarioBatch "c" (List.cons_ne_nil _ _) rfl
    (List.not_mem_nil _)

/-- C7 (order of the discovered names): for every non-empty batch of records with distinct
keys and every configuration, in both modes, the final Header List is the non-excluded
fixed headers followed by the discovered names, none of which is a fixed header, and the
discovered names are in order of Popularity Score descending, then name ascending, the
score being counted over the entire batch.  The scenario batch in append-all mode gives
`[a, b, c]`. -/
theorem discovered_order (fmt : Fmt) (cfg : Config) (data : List Record)
    (hne : data ≠ []) (hnd : ∀ row ∈ data, row.keys.Nodup) :
    (∃ out disc, main fmt cfg data = .ok out ∧
      out.header = cfg.headers.filter (fun h => decide (h ∉ cfg.excludeHeaders)) ++ disc ∧
      (∀ name ∈ disc, name ∉ cfg.headers) ∧
      disc.Pairwise (fun a b => popularity data b < popularity data a ∨
        (popularity data a = popularity data b ∧ a < b))) ∧
    main plainFmt appendAllConfig scenarioBatch
      = .ok { header := ["a", "b", "c"], rows := [["1", "2", ""], ["3", "", "4"]],
              warnings := [] } := by
  refine ⟨⟨_, discovered cfg data, main_eq_ok fmt cfg data hne, ?_, ?_, ?_⟩, by rfl⟩
  · show finalHeaders cfg data = _
    rw [finalHeaders_eq, filteredHeaders_eq_filter]
  · intro name hname
    exact ((discoverable_iff cfg name).1
      (discoverable_of_mem_discovered cfg data name hname)).1
  · have hnodup : (discovered cfg data).Pairwise (fun a b => a ≠ b) :=
      discovered_nodup cfg data (fun _ => hnd _ (headD_mem data hne))
    refine ((discovered_sorted cfg data hnd).and hnodup).imp ?_
    rintro a b ⟨h, hab⟩
    rcases (cmpCountKey_le_zero _ _ a b).1 h with h | ⟨e, h | h⟩
    · exact Or.inl h
    · exact absurd h hab
    · exact Or.inr ⟨e, String.lt_iff_toList_lt.2 h⟩

/-- Witness of C7: the scenario batch in default mode. -/
theorem discovered_order_witness :
    (∃ out disc, main plainFmt defaultConfig scenarioBatch = .ok out ∧
      out.header = defaultConfig.headers.filter
        (fun h => decide (h ∉ defaultConfig.excludeHeaders)) ++ disc ∧
      (∀ name ∈ disc, name ∉ defaultConfig.headers) ∧
      disc.Pairwise (fun a b => popularity scenarioBatch b < popularity scenarioBatch a ∨
        (popularity scenarioBatch a = popularity scenarioBatch b ∧ a < b))) ∧
    main plainFmt appendAllConfig scenarioBatch
      = .ok { header := ["a", "b", "c"], rows := [["1", "2", ""], ["3", "", "4"]],
              warnings := [] } :=
  discovered_order plainFmt defaultConfig scenarioBatch (List.cons_ne_nil _ _)
    (by
      intro row hrow
      simp only [scenarioBatch, List.mem_cons, List.mem_singleton, List.not_mem_nil,
        or_false] at hrow
      rcases hrow with rfl | rfl <;> decide)

/-- C8, as the claim states it, fails: in append-all mode with the batch `[{"a":null}]` the
name `a` is a key of a record, is not fixed, not excluded and not a merge source key, yet
it is not discovered and the final Header List is empty. -/
theorem append_all_candidates_counterexample :
    ∃ out, main plainFmt appendAllConfig [[("a", .null)]] = .ok out ∧
      "a" ∈ GoMap.keys ([("a", .null)] : Record) ∧
      "a" ∉ appendAllConfig.headers ∧
      "a" ∉ appendAllConfig.excludeHeaders ∧
      ¬ IsMergeSourceKey appendAllConfig.assignments "a" ∧
      "a" ∉ discovered appendAllConfig [[("a", .null)]] ∧
      out.header = [] :=
  ⟨_, rfl, by decide, by decide, by decide, by simp [IsMergeSourceKey, appendAllConfig],
    by decide, rfl⟩

/-- C8, amended (append-all mode): the discovered candidates are the field names that occur
in some record with a value that is neither null nor the empty string, minus the fixed
headers, the excluded names and the merge source keys; the final Header List is the
non-excluded fixed headers followed by them, so every name with such a value in some record
that is neither excluded nor a merge source key is in the final Header List. -/
theorem append_all_candidates (fmt : Fmt) (cfg : Config) (data : List Record)
    (hne : data ≠ []) (hmode : cfg.appendAllHeaders = true) :
    ∃ out, main fmt cfg data = .ok out ∧
      out.header = filteredHeaders cfg cfg.headers ++ discovered cfg data ∧
      (∀ name, name ∈ discovered cfg data ↔
        (∃ row ∈ data, ∃ v, (name, v) ∈ row ∧ v.nonEmpty = true) ∧
          name ∉ cfg.headers ∧ name ∉ cfg.excludeHeaders ∧
          ¬ IsMergeSourceKey cfg.assignments name) ∧
      (∀ name, (∃ row ∈ data, ∃ v, (name, v) ∈ row ∧ v.nonEmpty = true) →
        name ∉ cfg.excludeHeaders → ¬ IsMergeSourceKey cfg.assignments name →
        name ∈ out.header) := by
  have hmem : ∀ name, name ∈ discovered cfg data ↔
      (∃ row ∈ data, ∃ v, (name, v) ∈ row ∧ v.nonEmpty = true) ∧
        name ∉ cfg.headers ∧ name ∉ cfg.excludeHeaders ∧
        ¬ IsMergeSourceKey cfg.assignments name := by
    intro name
    rw [mem_discovered_append cfg data name hmode, discoverable_iff]
    exact and_comm
  refine ⟨_, main_eq_ok fmt cfg data hne, finalHeaders_eq cfg data, hmem, ?_⟩
  intro name hocc hex hsrc
  show name ∈ finalHeaders cfg data
  rw [finalHeaders_eq, List.mem_append, mem_filteredHeaders]
  by_cases hfix : name ∈ cfg.headers
  · exact Or.inl ⟨hfix, hex⟩
  · exact Or.inr ((hmem name).2 ⟨hocc, hfix, hex, hsrc⟩)

/-- Witness of C8: the scenario batch in append-all mode. -/
theorem append_all_candidates_witness :
    ∃ out, main plainFmt appendAllConfig scenarioBatch = .ok out ∧
      out.header = filteredHeaders appendAllConfig appendAllConfig.headers
        ++ discovered appendAllConfig scenarioBatch ∧
      (∀ name, name ∈ discovered appendAllConfig scenarioBatch ↔
        (∃ row ∈ scenarioBatch, ∃ v, (name, v) ∈ row ∧ v.nonEmpty = true) ∧
          name ∉ appendAllConfig.headers ∧ name ∉ appendAllConfig.excludeHeaders ∧
          ¬ IsMergeSourceKey appendAllConfig.assignments name) ∧
      (∀ name, (∃ row ∈ scenarioBatch, ∃ v, (name, v) ∈ row ∧ v.nonEmpty = true) →
        name ∉ appendAllConfig.excludeHeaders →
        ¬ IsMergeSourceKey appendAllConfig.assignments name →
        name ∈ out.header) :=
  append_all_candidates plainFmt appendAllConfig scenarioBatch (List.cons_ne_nil _ _) rfl

/-- C9 (merge source keys): for every non-empty batch and configuration, in both modes, a
merge source key that is not a fixed header is not in the final Header List, and a merge
source key that is a fixed header and is not excluded is in it. -/
theorem merge_source_keys (fmt : Fmt) (cfg : Config) (data : List Record) (hne : data ≠ []) :
    ∃ out, main fmt cfg data = .ok out ∧
      (∀ name, IsMergeSourceKey cfg.assignments name → name ∉ cfg.headers →
        name ∉ out.header) ∧
      (∀ name, IsMergeSourceKey cfg.assignments name → name ∈ cfg.headers →
        name ∉ cfg.excludeHeaders → name ∈ out.header) := by
  refine ⟨_, main_eq_ok fmt cfg data hne, ?_, ?_⟩
  · intro name hsrc hfix hmem
    rcases List.mem_append.1 ((mem_filteredHeaders cfg _ name).1 hmem).1 with h | h
    · exact hfix h
    · exact ((discoverable_iff cfg name).1
        (discoverable_of_mem_discovered cfg data name h)).2.2 hsrc
  · intro name _ hfix hex
    exact (mem_filteredHeaders cfg _ name).2 ⟨List.mem_append_left _ hfix, hex⟩

/-- Witness of C9: with the rules `err=error` and `err=msg` the source `error` is dropped and
the fixed source `msg` is kept. -/
theorem merge_source_keys_witness :
    ∃ out, main plainFmt
        { headers := ["msg"], appendAllHeaders := true, excludeHeaders := [],
          assignments := [("err", "error"), ("err", "msg")] }
        [[("error", .string "boom"), ("msg", .string "m")]] = .ok out ∧
      (∀ name, IsMergeSourceKey [("err", "error"), ("err", "msg")] name → name ∉ ["msg"] →
        name ∉ out.header) ∧
      (∀ name, IsMergeSourceKey [("err", "error"), ("err", "msg")] name → name ∈ ["msg"] →
        name ∉ ([] : List String) → name ∈ out.header) :=
  merge_source_keys plainFmt
    { headers := ["msg"], appendAllHeaders := true, excludeHeaders := [],
      assignments := [("err", "error"), ("err", "msg")] }
    [[("error", .string "boom"), ("msg", .string "m")]] (List.cons_ne_nil _ _)

/-- C10 (empty batch): the run returns an error exactly when the batch has no record, and an
error carries no output; for a non-empty batch it returns the header row and one data row
per record, in input order. -/
theorem empty_batch (fmt : Fmt) (cfg : Config) (data : List Record) :
    ((∃ e, main fmt cfg data = .error e) ↔ data = []) ∧
    (data ≠ [] → ∃ out, main fmt cfg data = .ok out ∧
      out.header = finalHeaders cfg data ∧
      out.rows.length = data.length ∧
      ∀ i (hi : i < data.length),
        out.rows[i]? = some (values fmt cfg out.header (data.get ⟨i, hi⟩))) := by
  constructor
  · constructor
    · rintro ⟨e, he⟩
      by_contra hne
      rw [main_eq_ok fmt cfg data hne] at he
      cases he
    · rintro rfl
      exact ⟨_, rfl⟩
  · intro hne
    refine ⟨_, main_eq_ok fmt cfg data hne, rfl, by simp, ?_⟩
    intro i hi
    simp [List.getElem?_map, List.getElem?_eq_getElem hi]

/-- Witness of C10: the scenario batch gives two rows, the empty batch gives the error. -/
theorem empty_batch_witness :
    (∃ out, main plainFmt defaultConfig scenarioBatch = .ok out ∧
      out.header = finalHeaders defaultConfig scenarioBatch ∧
      out.rows.length = scenarioBatch.length ∧
      ∀ i (hi : i < scenarioBatch.length),
        out.rows[i]? = some (values plainFmt defaultConfig out.header
          (scenarioBatch.get ⟨i, hi⟩))) ∧
    ∃ e, main plainFmt defaultConfig [] = .error e :=
  ⟨(empty_batch plainFmt defaultConfig scenarioBatch).2 (List.cons_ne_nil _ _),
   (empty_batch plainFmt defaultConfig []).1.2 rfl⟩

/-- C11 (numeric coercion): for every record, header list and position, with the value that
lines 176-194 select for the header of that position: a `float64` that is an integer of the
signed 64-bit range gives the cell that is the decimal numeral of the integer (a minus sign
when negative, then digits only: no decimal point, no exponent); a `float64` with a
fractional part gives the cell that `%g` renders; null gives the empty cell and a string its
own text; for a header that is no merge target the selected value is the value of the record
under the header, and null when the field is absent.  The record
`{"a":3.0,"b":3.5,"c":null,"d":"x"}` gives the cells `3`, `3.5`, empty and `x`. -/
theorem numeric_coercion (fmt : Fmt) (cfg : Config) (row : Record) (headers : List String)
    (i : Nat) (header : String) (hi : headers[i]? = some header) :
    (∀ (x : Go.Float64) (n : Int), selectValue cfg row header = .number x →
      x.toRat = (n : ℚ) → -(2 : Int) ^ 63 ≤ n → n < (2 : Int) ^ 63 →
      (values fmt cfg headers row)[i]? = some (toString n) ∧
      IsDecimalOf (toString n) n ∧
      '.' ∉ (toString n).data ∧ 'e' ∉ (toString n).data ∧ 'E' ∉ (toString n).data) ∧
    (∀ x : Go.Float64, selectValue cfg row header = .number x → x.toRat.den ≠ 1 →
      (values fmt cfg headers row)[i]? = some (Go.formatG x)) ∧
    (selectValue cfg row header = .null → (values fmt cfg headers row)[i]? = some "") ∧
    (∀ s : String, selectValue cfg row header = .string s →
      (values fmt cfg headers row)[i]? = some s) ∧
    (sourcesOf cfg.assignments header = [] →
      (∀ v, row.get? header = some v → selectValue cfg row header = v) ∧
      (row.get? header = none → selectValue cfg row header = .null)) ∧
    three.toRat = 3 ∧ threeAndHalf.toRat = 7 / 2 ∧
    Go.formatG threeAndHalf = "3.5" ∧
    main plainFmt defaultConfig
        [[("a", .number three), ("b", .number threeAndHalf), ("c", .null), ("d", .string "x")]]
      = .ok { header := ["a", "b", "d", "c"], rows := [["3", "3.5", "x", ""]],
              warnings := [] } := by
  have hcell := values_getElem? fmt cfg headers row i header hi
  refine ⟨?_, ?_, ?_, ?_, ?_, ?_, ?_, by decide, by rfl⟩
  · intro x n hsel hx hlo hhi
    have hd := toString_isDecimalOf n
    rw [hcell, hsel, coerce_integer fmt x n hx hlo hhi]
    exact ⟨rfl, hd, not_mem_of_isDecimalOf hd '.' (by decide) (by decide),
      not_mem_of_isDecimalOf hd 'e' (by decide) (by decide),
      not_mem_of_isDecimalOf hd 'E' (by decide) (by decide)⟩
  · intro x hsel hx
    rw [hcell, hsel, coerce_fraction fmt x hx]
  · intro hsel
    rw [hcell, hsel]
    rfl
  · intro s hsel
    rw [hcell, hsel]
    rfl
  · intro ht
    rw [selectValue_plain cfg row header ht]
    refine ⟨fun v hv => by rw [hv]; rfl, fun hnone => by rw [hnone]; rfl⟩
  · simp [Go.Float64.toRat, three]
  · simp [Go.Float64.toRat, threeAndHalf]
    norm_num

/-- Witness of C11: the record `{"n":-42.0,"f":-0.25,"p":2^62}` gives the cells `-42`,
`-0.25` and `4611686018427387904`. -/
theorem numeric_coercion_witness :
    (values plainFmt defaultConfig ["n", "f", "p"] numbersRecord)[0]? = some "-42" ∧
    (values plainFmt defaultConfig ["n", "f", "p"] numbersRecord)[1]? = some "-0.25" ∧
    (values plainFmt defaultConfig ["n", "f", "p"] numbersRecord)[2]?
      = some "4611686018427387904" :=
  ⟨(((numeric_coercion plainFmt defaultConfig numbersRecord ["n", "f", "p"] 0 "n" rfl).1
      ⟨-42, 0, by decide, by decide, by decide⟩ (-42) rfl
      (by simp [Go.Float64.toRat]) (by decide) (by decide)).1).trans (by rfl),
   ((numeric_coercion plainFmt defaultConfig numbersRecord ["n", "f", "p"] 1 "f" rfl).2.1
      ⟨-1, -2, by decide, by decide, by decide⟩ rfl
      (by
        have h : (Go.Float64.toRat ⟨-1, -2, by decide, by decide, by decide⟩) = -1 / 4 := by
          simp [Go.Float64.toRat]
          norm_num
        have hd : ((-1 : ℚ) / 4).den = 4 := by norm_num
        rw [h, hd]
        decide)).trans (by decide),
   (((numeric_coercion plainFmt defaultConfig numbersRecord ["n", "f", "p"] 2 "p" rfl).1
      ⟨1, 62, by decide, by decide, by decide⟩ ((2 : Int) ^ 62) rfl
      (by
        simp [Go.Float64.toRat]
        norm_num)
      (by decide) (by decide)).1).trans (by rfl)⟩

/-- C12, as the claim states it, fails in its last part: with `headers=err`, the rule
`err=error` and the batch `[{"error":"boom"}]` in default mode, the field `error` is not in
the final Header List (and is warned about), yet its value `boom` is the cell of the row,
and another value under `error` gives another cell. -/
theorem schema_mismatch_warnings_counterexample :
    main plainFmt
        { headers := ["err"], appendAllHeaders := false, excludeHeaders := [],
          assignments := [("err", "error")] }
        [[("error", .string "boom")]]
      = .ok { header := ["err"], rows := [["boom"]], warnings := [(1, "error")] } ∧
    "error" ∉ (["err"] : List String) ∧
    GoMap.get? ([("error", .string "boom")] : Record) "error" = some (.string "boom") ∧
    values plainFmt
        { headers := ["err"], appendAllHeaders := false, excludeHeaders := [],
          assignments := [("err", "error")] }
        ["err"] [("error", .string "other")] = ["other"] :=
  ⟨by rfl, by decide, by rfl, by decide⟩

/-- C12, amended (schema-mismatch warnings): for every non-empty batch the run succeeds
with one row per record; in default mode the warning `(i, k)` is emitted exactly when `k` is
a key of the `i`-th record (counted from 1) and is not in the final Header List; in
append-all mode no warning is emitted; and a field that is neither in the final Header List
nor a source of a merge target of the list reaches no cell: any record that differs at most
under that name gives the same row. -/
theorem schema_mismatch_warnings (fmt : Fmt) (cfg : Config) (data : List Record)
    (hne : data ≠ []) :
    ∃ out, main fmt cfg data = .ok out ∧
      out.rows.length = data.length ∧
      (cfg.appendAllHeaders = false → ∀ (i : Nat) (k : String),
        (i, k) ∈ out.warnings ↔
          ∃ j row, i = j + 1 ∧ data[j]? = some row ∧ k ∈ row.keys ∧ k ∉ out.header) ∧
      (cfg.appendAllHeaders = true → out.warnings = []) ∧
      (∀ (j : Nat) (row row' : Record) (k : String), data[j]? = some row →
        k ∉ out.header → (∀ target ∈ out.header, k ∉ sourcesOf cfg.assignments target) →
        (∀ key, key ≠ k → row.get? key = row'.get? key) →
        out.rows[j]? = some (values fmt cfg out.header row')) := by
  refine ⟨_, main_eq_ok fmt cfg data hne, by simp, ?_, ?_, ?_⟩
  · intro hmode i k
    rw [mem_warnings]
    simp [hmode]
  · intro hmode
    apply List.eq_nil_iff_forall_not_mem.2
    rintro ⟨i, k⟩ hmem
    have := ((mem_warnings cfg _ data i k).1 hmem).1
    rw [hmode] at this
    cases this
  · intro j row row' k hj hk hsrc hsame
    simp only [List.getElem?_map, hj, Option.map_some']
    rw [values_independent fmt cfg _ row row' k hk hsrc hsame]

/-- Witness of C12: the scenario batch in default mode; the warning is `(2, c)`. -/
theorem schema_mismatch_warnings_witness :
    (∃ out, main plainFmt defaultConfig scenarioBatch = .ok out ∧
      out.rows.length = scenarioBatch.length ∧
      (defaultConfig.appendAllHeaders = false → ∀ (i : Nat) (k : String),
        (i, k) ∈ out.warnings ↔
          ∃ j row, i = j + 1 ∧ scenarioBatch[j]? = some row ∧ k ∈ row.keys ∧
            k ∉ out.header) ∧
      (defaultConfig.appendAllHeaders = true → out.warnings = []) ∧
      (∀ (j : Nat) (row row' : Record) (k : String), scenarioBatch[j]? = some row →
        k ∉ out.header →
        (∀ target ∈ out.header, k ∉ sourcesOf defaultConfig.assignments target) →
        (∀ key, key ≠ k → row.get? key = row'.get? key) →
        out.rows[j]? = some (values plainFmt defaultConfig out.header row'))) ∧
    (main plainFmt defaultConfig scenarioBatch).map (fun out => out.warnings)
      = .ok [(2, "c")] :=
  ⟨schema_mismatch_warnings plainFmt defaultConfig scenarioBatch (List.cons_ne_nil _ _), by rfl⟩

/-- C16 (merge-headers parsing): every `merge-headers` string is the comma-separated text of
well-formed pieces; for every such text the recorded rules are the assignments of the
pieces, in the order of the string, with target and source trimmed; the merge map assigns
to each target the sources of all its assignments in that order (`t=s1,t=s2` gives
`t -> [s1, s2]`); and the merge source keys are exactly the sources that differ from their
own target. -/
theorem merge_headers_parsing :
    (∀ s : String, ∃ pieces : List Piece, (∀ p ∈ pieces, p.WellFormed) ∧ flagText pieces = s) ∧
    (∀ pieces : List Piece, (∀ p ∈ pieces, p.WellFormed) →
      parseMergeHeaders (flagText pieces) = pieces.filterMap Piece.rule ∧
      (∀ target : String,
        (mergeMap (parseMergeHeaders (flagText pieces))).get? target
          = if sourcesOf (pieces.filterMap Piece.rule) target = [] then none
            else some (sourcesOf (pieces.filterMap Piece.rule) target)) ∧
      (∀ name : String,
        ((mergeSourceKeys (parseMergeHeaders (flagText pieces))).get? name).getD false = true
          ↔ ∃ rule ∈ pieces.filterMap Piece.rule, rule.2 = name ∧ rule.2 ≠ rule.1)) ∧
    parseMergeHeaders "t=s1,t=s2" = [("t", "s1"), ("t", "s2")] ∧
    mergeMap (parseMergeHeaders "t=s1,t=s2") = [("t", ["s1", "s2"])] ∧
    parseMergeHeaders " err = error ,bad,a=b=c,x=x" = [("err", "error"), ("x", "x")] ∧
    mergeSourceKeys (parseMergeHeaders " err = error ,bad,a=b=c,x=x") = [("error", true)] := by
  refine ⟨exists_pieces, ?_, by decide, by decide, by decide, by decide⟩
  intro pieces wf
  have h := parseMergeHeaders_flagText pieces wf
  refine ⟨h, ?_, ?_⟩
  · intro target
    rw [h, mergeMap_get?]
  · intro name
    rw [h, mergeSourceKeys_get?]
    rfl

/-- Witness of C16: the string `a = b,junk,a=c` as the pieces ` a = b`, `junk`, `a=c`. -/
theorem merge_headers_parsing_witness :
    parseMergeHeaders (flagText
        [.assignment ['a', ' '] [' ', 'b'], .other ['j', 'u', 'n', 'k'],
         .assignment ['a'] ['c']])
      = [("a", "b"), ("a", "c")] :=
  ((merge_headers_parsing.2.1
    [.assignment ['a', ' '] [' ', 'b'], .other ['j', 'u', 'n', 'k'], .assignment ['a'] ['c']]
    (by
      intro p hp
      simp only [List.mem_cons, List.mem_singleton, List.not_mem_nil, or_false] at hp
      rcases hp with rfl | rfl | rfl
      · exact ⟨by decide, by decide, by decide, by decide⟩
      · exact ⟨by decide, by decide⟩
      · exact ⟨by decide, by decide, by decide, by decide⟩)).1).trans (by decide)

/-- C17 (fixed headers and collisions): for every non-empty batch of records with distinct
keys and every configuration, in both modes, the final Header List is `fixedHeaders` without
the excluded names, in the same order and multiplicity, followed by the discovered
candidates; the candidates are pairwise distinct and none is a fixed header; so when
`fixedHeaders` has no duplicate the final Header List has none. -/
theorem fixed_headers_and_collisions (fmt : Fmt) (cfg : Config) (data : List Record)
    (hne : data ≠ []) (hnd : ∀ row ∈ data, row.keys.Nodup) :
    ∃ out disc, main fmt cfg data = .ok out ∧
      out.header = cfg.headers.filter (fun h => decide (h ∉ cfg.excludeHeaders)) ++ disc ∧
      disc.Nodup ∧
      (∀ name ∈ disc, name ∉ cfg.headers) ∧
      (cfg.headers.Nodup → out.header.Nodup) := by
  have hdisc : (discovered cfg data).Nodup :=
    discovered_nodup cfg data (fun _ => hnd _ (headD_mem data hne))
  have hfix : ∀ name ∈ discovered cfg data, name ∉ cfg.headers := fun name hname =>
    ((discoverable_iff cfg name).1 (discoverable_of_mem_discovered cfg data name hname)).1
  refine ⟨_, discovered cfg data, main_eq_ok fmt cfg data hne, ?_, hdisc, hfix, ?_⟩
  · show finalHeaders cfg data = _
    rw [finalHeaders_eq, filteredHeaders_eq_filter]
  · intro hnodup
    show (finalHeaders cfg data).Nodup
    rw [finalHeaders_eq, filteredHeaders_eq_filter]
    refine List.Nodup.append (hnodup.filter _) hdisc ?_
    intro name h1 h2
    exact hfix name h2 (List.mem_filter.1 h1).1

/-- Witness of C17: the scenario batch with the fixed headers `c, x`, the excluded name `x`
and append-all mode gives the headers `c, a, b`. -/
theorem fixed_headers_and_collisions_witness :
    (∃ out disc, main plainFmt
        { headers := ["c", "x"], appendAllHeaders := true, excludeHeaders := ["x"],
          assignments := [] } scenarioBatch = .ok out ∧
      out.header = (["c", "x"] : List String).filter
        (fun h => decide (h ∉ (["x"] : List String))) ++ disc ∧
      disc.Nodup ∧
      (∀ name ∈ disc, name ∉ (["c", "x"] : List String)) ∧
      ((["c", "x"] : List String).Nodup → out.header.Nodup)) ∧
    finalHeaders
        { headers := ["c", "x"], appendAllHeaders := true, excludeHeaders := ["x"],
          assignments := [] } scenarioBatch = ["c", "a", "b"] :=
  ⟨fixed_headers_and_collisions plainFmt
    { headers := ["c", "x"], appendAllHeaders := true, excludeHeaders := ["x"],
      assignments := [] } scenarioBatch (List.cons_ne_nil _ _)
    (by
      intro row hrow
      simp only [scenarioBatch, List.mem_cons, List.mem_singleton, List.not_mem_nil,
        or_false] at hrow
      rcases hrow with rfl | rfl <;> decide), by decide⟩

/-- C19, as the claim states it, fails in its second part: with `headers=error`, the rule
`err=error` and the batch `[{"error":"boom"}]`, the merge target `err` is not a fixed
header and not a key of the record, and it is not in the final Header List, yet the value
`boom` held under its source key `error` is the cell of the fixed header `error`. -/
theorem merge_target_not_added_counterexample :
    main plainFmt
        { headers := ["error"], appendAllHeaders := false, excludeHeaders := [],
          assignments := [("err", "error")] }
        [[("error", .string "boom")]]
      = .ok { header := ["error"], rows := [["boom"]], warnings := [] } ∧
    sourcesOf [("err", "error")] "err" = ["error"] ∧
    "err" ∉ (["error"] : List String) ∧
    "err" ∉ GoMap.keys ([("error", .string "boom")] : Record) ∧
    GoMap.get? ([("error", .string "boom")] : Record) "error" = some (.string "boom") :=
  ⟨by rfl, by decide, by decide, by decide, by rfl⟩

/-- C19, amended (merge targets are not added to the schema by the rule): for every
non-empty batch and configuration, a merge target that is not a fixed header and is not
discovered (it is not a key of the first record in default mode, it holds no non-null,
non-empty value in any record in append-all mode) is not in the final Header List; and then
a source key of it that is itself neither in the final Header List nor a source of a merge
target of the list reaches no cell: any record that differs at most under that source key
gives the same row.  The rule `err=error` with no fixed headers and the batch
`[{"error":"boom"}]` gives an empty Header List and an empty row in either mode. -/
theorem merge_target_not_added (fmt : Fmt) (cfg : Config) (data : List Record)
    (target : String) (hne : data ≠ [])
    (_htarget : sourcesOf cfg.assignments target ≠ [])
    (hfix : target ∉ cfg.headers)
    (hdefault : cfg.appendAllHeaders = false → target ∉ (data.head hne).keys)
    (happend : cfg.appendAllHeaders = true →
      ∀ row ∈ data, ∀ v, (target, v) ∈ row → v.nonEmpty = false) :
    (∃ out, main fmt cfg data = .ok out ∧
      target ∉ out.header ∧
      ∀ source ∈ sourcesOf cfg.assignments target, source ∉ out.header →
        (∀ other ∈ out.header, source ∉ sourcesOf cfg.assignments other) →
        ∀ (j : Nat) (row row' : Record), data[j]? = some row →
          (∀ key, key ≠ source → row.get? key = row'.get? key) →
          out.rows[j]? = some (values fmt cfg out.header row')) ∧
    main plainFmt
        { headers := [], appendAllHeaders := false, excludeHeaders := [],
          assignments := [("err", "error")] }
        [[("error", .string "boom")]]
      = .ok { header := [], rows := [[]], warnings := [(1, "error")] } ∧
    main plainFmt
        { headers := [], appendAllHeaders := true, excludeHeaders := [],
          assignments := [("err", "error")] }
        [[("error", .string "boom")]]
      = .ok { header := [], rows := [[]], warnings := [] } := by
  refine ⟨⟨_, main_eq_ok fmt cfg data hne, ?_, ?_⟩, by rfl, by rfl⟩
  · show target ∉ finalHeaders cfg data
    rw [finalHeaders_eq, List.mem_append, mem_filteredHeaders]
    rintro (⟨h, _⟩ | h)
    · exact hfix h
    · cases hmode : cfg.appendAllHeaders with
      | true =>
        obtain ⟨_, row, hrow, v, hv, hval⟩ :=
          (mem_discovered_append cfg data target hmode).1 h
        rw [happend hmode row hrow v hv] at hval
        cases hval
      | false =>
        have := ((mem_discovered_default cfg data target hmode).1 h).1
        rw [headD_eq_head data hne] at this
        exact hdefault hmode this
  · intro source _ hnot hother j row row' hj hsame
    simp only [List.getElem?_map, hj, Option.map_some']
    rw [values_independent fmt cfg _ row row' source hnot hother hsame]

/-- Witness of C19: the rules `err=error` and `err=msg` with the fixed header `id` in
default mode. -/
theorem merge_target_not_added_witness :
    ∃ out, main plainFmt
        { headers := ["id"], appendAllHeaders := false, excludeHeaders := [],
          assignments := [("err", "error"), ("err", "msg")] }
        [[("id", .string "7"), ("error", .string "boom")]] = .ok out ∧
      "err" ∉ out.header ∧
      ∀ source ∈ sourcesOf [("err", "error"), ("err", "msg")] "err", source ∉ out.header →
        (∀ other ∈ out.header,
          source ∉ sourcesOf [("err", "error"), ("err", "msg")] other) →
        ∀ (j : Nat) (row row' : Record),
          ([[("id", .string "7"), ("error", .string "boom")]] : List Record)[j]? = some row →
          (∀ key, key ≠ source → row.get? key = row'.get? key) →
          out.rows[j]? = some (values plainFmt
            { headers := ["id"], appendAllHeaders := false, excludeHeaders := [],
              assignments := [("err", "error"), ("err", "msg")] } out.header row') :=
  (merge_target_not_added plainFmt
    { headers := ["id"], appendAllHeaders := false, excludeHeaders := [],
      assignments := [("err", "error"), ("err", "msg")] }
    [[("id", .string "7"), ("error", .string "boom")]] "err" (List.cons_ne_nil _ _)
    (by decide) (by decide) (fun _ => by decide) (fun h => by cases h)).1

end Json2csv

namespace Csv2json

open Json2csv

/-- C14, as the claim states it, fails: with the header `a,a` and the data row `1,2` the one
object maps the header name of column 0 to `2`, the field of column 1, not to the field `1`
of column 0. -/
theorem row_mapping_counterexample :
    main ["a", "a"] [["1", "2"]] = [[("a", "2")]] ∧
    (["a", "a"] : List String)[0]? = some "a" ∧
    (["1", "2"] : List String)[0]? = some "1" ∧
    GoMap.get? (rowMap ["a", "a"] ["1", "2"]) "a" = some "2" :=
  ⟨by decide, by decide, by decide, by decide⟩

/-- C14, amended (row mapping): the output has one object per data row, in input order; the
object of a row maps the header name of every column that is the last column with that name
to the field of that column, unchanged (so of every column when the header names are
distinct); every key of the object is a header name and, for a row as wide as the header,
every header name is a key. -/
theorem row_mapping (header : List String) (rows : List (List String)) :
    (main header rows).length = rows.length ∧
    ∀ (j : Nat) (row : List String), rows[j]? = some row →
      ∃ object : GoMap String, (main header rows)[j]? = some object ∧
        object.keys.Nodup ∧
        (∀ (i : Nat) (name value : String), header[i]? = some name → row[i]? = some value →
          (∀ i' : Nat, i < i' → header[i']? ≠ some name) →
          object.get? name = some value) ∧
        (header.Nodup → ∀ (i : Nat) (name value : String),
          header[i]? = some name → row[i]? = some value → object.get? name = some value) ∧
        (∀ key ∈ object.keys, key ∈ header) ∧
        (row.length = header.length → ∀ name ∈ header, name ∈ object.keys) := by
  rw [main_eq_map]
  refine ⟨by simp, ?_⟩
  intro j row hrow
  refine ⟨rowMap header row, by simp [List.getElem?_map, hrow], rowMap_nodup header row,
    fun i name value hn hv hl => rowMap_get?_last header row i name value hn hv hl, ?_,
    fun key hkey => mem_keys_rowMap_of_mem header row key hkey,
    fun hw name hname => (mem_keys_rowMap_iff header row name hw).2 hname⟩
  intro hnd i name value hn hv
  apply rowMap_get?_last header row i name value hn hv
  intro i' hlt hn'
  have h1 : i < header.length := by
    by_contra hge
    rw [List.getElem?_eq_none (by omega)] at hn
    cases hn
  have h2 : i' < header.length := by
    by_contra hge
    rw [List.getElem?_eq_none (by omega)] at hn'
    cases hn'
  rw [List.getElem?_eq_getElem h1] at hn
  rw [List.getElem?_eq_getElem h2] at hn'
  have heq : header[i] = header[i'] := by
    rw [Option.some.inj hn, Option.some.inj hn']
  have := (List.Nodup.getElem_inj_iff hnd).1 heq
  omega

/-- Witness of C14: the header `id,name` and the rows `1,x` and `2,y`. -/
theorem row_mapping_witness :
    main ["id", "name"] [["1", "x"], ["2", "y"]]
      = [[("id", "1"), ("name", "x")], [("id", "2"), ("name", "y")]] ∧
    (main ["id", "name"] [["1", "x"], ["2", "y"]]).length = 2 :=
  ⟨by decide, (row_mapping ["id", "name"] [["1", "x"], ["2", "y"]]).1⟩

/-- C15, as the claim states it, fails: a CSV input with a header row and no data row gives
an empty batch, on which `json2csv` stops with its error. -/
theorem round_trip_counterexample :
    main ["a", "b"] [] = [] ∧
    roundTrip plainFmt defaultConfig ["a", "b"] [] = .error "No data found in JSON" :=
  ⟨by decide, by rfl⟩

/-- C15, amended (CSV to JSON to CSV): for every CSV input with a header row and at least
one data row, all rows as wide as the header, `csv2json` followed by `json2csv` under the
default configuration succeeds; the header names of the result are exactly the header names
of the input, each once, so the result has as many columns as the input has distinct header
names (as many columns as the input when no header name is repeated); it has one data row
per data row of the input, each as wide as its header. -/
theorem round_trip (fmt : Fmt) (header : List String) (rows : List (List String))
    (hrows : rows ≠ []) (hwidth : ∀ row ∈ rows, row.length = header.length) :
    ∃ out, roundTrip fmt defaultConfig header rows = .ok out ∧
      (∀ name, name ∈ out.header ↔ name ∈ header) ∧
      out.header.Nodup ∧
      out.header.length = header.dedup.length ∧
      (header.Nodup → out.header.length = header.length) ∧
      out.rows.length = rows.length ∧
      (∀ cells ∈ out.rows, cells.length = out.header.length) := by
  obtain ⟨row0, rest, rfl⟩ := List.exists_cons_of_ne_nil hrows
  have hne : (main header (row0 :: rest)).map toRecord ≠ [] := by
    rw [batch_eq]
    simp
  have hhead : ((main header (row0 :: rest)).map toRecord).headD []
      = toRecord (rowMap header row0) := by
    rw [batch_eq]
    rfl
  have hmem : ∀ name, name ∈ finalHeaders defaultConfig ((main header (row0 :: rest)).map toRecord)
      ↔ name ∈ header := by
    intro name
    rw [finalHeaders_eq, List.mem_append, mem_filteredHeaders,
      mem_discovered_default defaultConfig _ name rfl, hhead, keys_toRecord,
      mem_keys_rowMap_iff header row0 name (hwidth row0 (List.mem_cons_self _ _))]
    constructor
    · rintro (⟨h, _⟩ | ⟨h, _⟩)
      · exact absurd h (List.not_mem_nil _)
      · exact h
    · intro h
      exact Or.inr ⟨h, discoverable_defaultConfig name⟩
  have hnd : (finalHeaders defaultConfig ((main header (row0 :: rest)).map toRecord)).Nodup := by
    rw [finalHeaders_eq]
    have : filteredHeaders defaultConfig defaultConfig.headers = [] := rfl
    rw [this, List.nil_append]
    apply discovered_nodup
    intro _
    rw [hhead, keys_toRecord]
    exact rowMap_nodup header row0
  have hlen : (finalHeaders defaultConfig ((main header (row0 :: rest)).map toRecord)).length
      = header.dedup.length := by
    apply List.Perm.length_eq
    rw [List.perm_ext_iff_of_nodup hnd (List.nodup_dedup header)]
    intro name
    rw [hmem name, List.mem_dedup]
  unfold roundTrip
  refine ⟨_, main_eq_ok fmt defaultConfig _ hne, hmem, hnd, hlen, ?_, ?_, ?_⟩
  · intro h
    show (finalHeaders defaultConfig _).length = header.length
    rw [hlen, h.dedup]
  · simp [main_eq_map]
  · intro cells hcells
    obtain ⟨r, _, rfl⟩ := List.mem_map.1 hcells
    simp [values]

/-- Witness of C15: the header `id,name` and the rows `1,x` and `2,`. -/
theorem round_trip_witness :
    (∃ out, roundTrip plainFmt defaultConfig ["id", "name"] [["1", "x"], ["2", ""]] = .ok out ∧
      (∀ name, name ∈ out.header ↔ name ∈ (["id", "name"] : List String)) ∧
      out.header.Nodup ∧
      out.header.length = (["id", "name"] : List String).dedup.length ∧
      ((["id", "name"] : List String).Nodup →
        out.header.length = (["id", "name"] : List String).length) ∧
      out.rows.length = ([["1", "x"], ["2", ""]] : List (List String)).length ∧
      (∀ cells ∈ out.rows, cells.length = out.header.length)) ∧
    roundTrip plainFmt defaultConfig ["id", "name"] [["1", "x"], ["2", ""]]
      = .ok { header := ["id", "name"], rows := [["1", "x"], ["2", ""]], warnings := [] } :=
  ⟨round_trip plainFmt ["id", "name"] [["1", "x"], ["2", ""]] (List.cons_ne_nil _ _)
    (by decide), by rfl⟩

end Csv2json

namespace Sqltable2csv

/-- C13, as the claim states it, fails: a line of three spaces is composed solely of the
characters `-`, `+`, `=` and space, yet `isSeparatorLine` returns false and a CSV row is
written for it. -/
theorem separator_line_counterexample :
    (∀ c ∈ ("   " : String).data, c = '-' ∨ c = '+' ∨ c = '=' ∨ c = ' ') ∧
    isSeparatorLine "   " = false ∧
    main ["   "] = [[""]] :=
  ⟨by decide, by decide, by decide⟩

/-- C13, amended (line filtering): a line is dropped (`isSeparatorLine` returns true and no
CSV row is written for it) if and only if it is composed solely of the characters `-`, `+`,
`=` and space and holds at least one character that is not a space; every other line, also
an empty or blank one, yields exactly one CSV row, in input order. -/
theorem separator_line (line : String) (lines : List String) :
    (isSeparatorLine line = true ↔
      (∀ c ∈ line.data, c = '-' ∨ c = '+' ∨ c = '=' ∨ c = ' ') ∧ ∃ c ∈ line.data, c ≠ ' ') ∧
    main [line] = (if isSeparatorLine line then [] else [splitAndTrim line]) ∧
    main lines =
      (lines.map (fun l => if isSeparatorLine l then [] else [splitAndTrim l])).flatten ∧
    main ["+---+---+", "| a | b |", "+===+===+", "", "| 1 | 2 |"]
      = [["", "a", "b", ""], [""], ["", "1", "2", ""]] := by
  refine ⟨isSeparatorLine_iff line, ?_, ?_, by decide⟩
  · rw [main_eq_filter]
    cases h : isSeparatorLine line <;> simp [List.filter_cons, h]
  · rw [main_eq_filter]
    induction lines with
    | nil => rfl
    | cons l rest ih =>
      cases h : isSeparatorLine l <;> simp [List.filter_cons, h, ih]

/-- C18 (splitAndTrim): for every line the result has one field more than the line has `|`
characters; the line is its `|`-free segments joined by `|`, and the `i`-th field is the
`i`-th segment without its leading and trailing white space; no field holds a `|` or begins
or ends with white space; and `splitAndTrim` of a field returns that single field. -/
theorem split_and_trim (line : String) :
    (splitAndTrim line).length = line.data.count '|' + 1 ∧
    (∃ segs : List (List Char), line.data = List.intercalate ['|'] segs ∧
      (∀ seg ∈ segs, '|' ∉ seg) ∧
      segs.length = (splitAndTrim line).length ∧
      ∀ (i : Nat) (seg : List Char), segs[i]? = some seg →
        ∃ (field : String) (lead trail : List Char),
          (splitAndTrim line)[i]? = some field ∧
          seg = lead ++ field.data ++ trail ∧
          (∀ c ∈ lead, Go.isSpace c = true) ∧ (∀ c ∈ trail, Go.isSpace c = true)) ∧
    (∀ field ∈ splitAndTrim line,
      '|' ∉ field.data ∧
      (∀ c rest, field.data = c :: rest → Go.isSpace c = false) ∧
      (∀ init c, field.data = init ++ [c] → Go.isSpace c = false) ∧
      splitAndTrim field = [field]) ∧
    splitAndTrim "| id |  name\t| |" = ["", "id", "name", "", ""] := by
  have hlen : (splitAndTrim line).length = line.data.count '|' + 1 := by
    rw [splitAndTrim_eq]
    unfold Go.split
    simp [Go.length_splitChars]
  refine ⟨hlen, ⟨Go.splitChars '|' line.data, (Go.intercalate_splitChars '|' line.data).symm,
    Go.not_mem_of_mem_splitChars '|' line.data, ?_, ?_⟩, ?_, by decide⟩
  · rw [hlen, Go.length_splitChars]
  · intro i seg hseg
    obtain ⟨lead, trail, hdec, hlead, htrail⟩ := Go.trimSpaceChars_decomp seg
    exact ⟨Go.trimSpace ⟨seg⟩, lead, trail, splitAndTrim_getElem? line i seg hseg, hdec,
      hlead, htrail⟩
  · intro field hfield
    obtain ⟨seg, hseg, rfl⟩ := mem_splitAndTrim line field hfield
    have hno := Go.not_mem_of_mem_splitChars '|' line.data seg hseg
    refine ⟨fun e => hno ((Go.trimSpaceChars_sublist seg).subset e), ?_, ?_,
      splitAndTrim_field seg hno⟩
    · intro c rest h
      exact Go.trimSpaceChars_head seg c rest h
    · intro init c h
      exact Go.trimSpaceChars_last seg init c h

/-- Witness of C18: the line `a | b` has one `|` and two fields. -/
theorem split_and_trim_witness :
    (splitAndTrim "a | b").length = ("a | b" : String).data.count '|' + 1 ∧
    splitAndTrim "a | b" = ["a", "b"] :=
  ⟨(split_and_trim "a | b").1, by decide⟩

end Sqltable2csv
